import Mathlib

/-!
Verification of the call-graph analysis pipeline: the graph data model, the
graph diff engine (`graph_diff.py`), the plan engine (`plan_engine.py`),
the import/call resolution of the graph builder (`graph_builder.py`) and the
call-extraction passes of the language parsers.

Python dicts are embedded as association lists (last assignment wins, as in a
Python dict), Python sets as duplicate-free lists.  CPython iterates a `set`
in an unspecified, hash-dependent order; wherever the source iterates a set
we fix ascending string order as the canonical enumeration and say so at the
definition.  All definitions are executable and kernel-reducible so that
concrete runs can be checked by `decide`/`rfl`.
-/

/-! ## String ordering helpers (kernel-reducible replacements for `String.lt`) -/

/-- Lexicographic strict order on character lists, by code point. -/
def lexLt : List Char → List Char → Bool
  | [], [] => false
  | [], _ :: _ => true
  | _ :: _, [] => false
  | a :: as, b :: bs =>
    if a.toNat < b.toNat then true
    else if b.toNat < a.toNat then false
    else lexLt as bs

/-- Strict order on strings (Python's `<` on str, restricted to code points). -/
def strLtB (a b : String) : Bool := lexLt a.data b.data

/-- Insert a string into a sorted list (ascending). -/
def insertStr (x : String) : List String → List String
  | [] => [x]
  | y :: ys => if strLtB y x then y :: insertStr x ys else x :: y :: ys

/-- Python's `sorted` on a list of strings (insertion sort, ascending). -/
def sortStr (l : List String) : List String := l.foldr insertStr []

theorem mem_insertStr {a x : String} {l : List String} :
    a ∈ insertStr x l ↔ a = x ∨ a ∈ l := by
  induction l with
  | nil => simp [insertStr]
  | cons y ys ih =>
    cases h : strLtB y x with
    | true =>
      simp only [insertStr, h, if_pos, List.mem_cons, ih]
      tauto
    | false =>
      simp only [insertStr, h, Bool.false_eq_true, if_neg, not_false_iff, List.mem_cons]

theorem mem_sortStr {a : String} {l : List String} :
    a ∈ sortStr l ↔ a ∈ l := by
  induction l with
  | nil => simp [sortStr]
  | cons y ys ih =>
    simp only [sortStr, List.foldr] at *
    rw [mem_insertStr, ih]
    simp

/-! ## Python set / dict helpers -/

theorem contains_iff {α : Type} [BEq α] [LawfulBEq α] {l : List α} {a : α} :
    l.contains a = true ↔ a ∈ l := List.elem_iff

/-- Deduplicate a list (set semantics; only membership is ever observed). -/
def pyDedup {α : Type} [BEq α] : List α → List α
  | [] => []
  | x :: xs => if xs.contains x then pyDedup xs else x :: pyDedup xs

theorem mem_pyDedup {α : Type} [BEq α] [LawfulBEq α] {a : α} {l : List α} :
    a ∈ pyDedup l ↔ a ∈ l := by
  induction l with
  | nil => simp [pyDedup]
  | cons x xs ih =>
    cases h : xs.contains x with
    | true =>
      rw [pyDedup, if_pos h, ih]
      have hx : x ∈ xs := contains_iff.mp h
      constructor
      · intro hm; exact List.mem_cons_of_mem _ hm
      · intro hm
        rcases List.mem_cons.mp hm with rfl | hm
        · exact hx
        · exact hm
    | false =>
      rw [pyDedup, if_neg (fun hc => by rw [hc] at h; cases h)]
      simp [ih]

theorem nodup_pyDedup {α : Type} [BEq α] [LawfulBEq α] (l : List α) :
    (pyDedup l).Nodup := by
  induction l with
  | nil => simp [pyDedup]
  | cons x xs ih =>
    cases h : xs.contains x with
    | true => rw [pyDedup, if_pos h]; exact ih
    | false =>
      have hx : ¬ x ∈ xs := fun hm => by
        rw [contains_iff.mpr hm] at h; cases h
      rw [pyDedup, if_neg (fun hc => by rw [hc] at h; cases h)]
      exact List.Nodup.cons (fun hm => hx ((mem_pyDedup).mp hm)) ih

/-- Lookup in an association list whose more recent entries sit in front. -/
def lookupA {α : Type} (m : List (String × α)) (k : String) : Option α :=
  (m.find? (fun p => p.1 == k)).map (·.2)

/-! ## The graph data model (`nodes.json` / `edges.json` records) -/

/-- A graph node.  Optional fields model keys that may be absent from the
underlying Python dict (`node.get(...)` access). -/
structure Node where
  id : String
  type : String := "file"
  name : String := ""
  file_path : Option String := none
  language : Option String := none
  lines_of_code : Option Int := none
  abstraction_level : Option Int := none
  export_count : Option Int := none
  parent : Option String := none
deriving DecidableEq

/-- A graph edge (`{from, to, type, weight}`); `from`/`to` are reserved words
in Lean, hence the trailing underscore. -/
structure Edge where
  from_ : String
  to_ : String
  type : String
  weight : Int := 1
deriving DecidableEq

/-- A graph snapshot: `{nodes: [...], edges: [...]}`. -/
structure Graph where
  nodes : List Node
  edges : List Edge
deriving DecidableEq

/-- Placeholder returned when a dict lookup that cannot fail is forced;
never reached on the ids the engine actually looks up. -/
def panicNode : Node := { id := "" }

/-- `{n["id"]: n for n in nodes}` — on duplicate ids the last entry wins. -/
def lookupNode (ns : List Node) (i : String) : Option Node :=
  ns.reverse.find? (fun n => n.id == i)

/-- The id set of a graph (`set(nodes_x.keys())`). -/
def idsOf (g : Graph) : List String := pyDedup (g.nodes.map (·.id))

theorem mem_idsOf {g : Graph} {i : String} :
    i ∈ idsOf g ↔ ∃ n ∈ g.nodes, n.id = i := by
  simp [idsOf, mem_pyDedup, List.mem_map]

theorem lookupNode_eq_some_of_mem {ns : List Node} {i : String}
    (h : ∃ n ∈ ns, n.id = i) : ∃ n, lookupNode ns i = some n ∧ n.id = i := by
  obtain ⟨n, hn, hid⟩ := h
  have hex : ∃ x ∈ ns.reverse, (fun n => n.id == i) x = true :=
    ⟨n, List.mem_reverse.mpr hn, by simpa using hid⟩
  have hsome : (ns.reverse.find? (fun n => n.id == i)).isSome :=
    List.find?_isSome.mpr hex
  obtain ⟨m, hm⟩ := Option.isSome_iff_exists.mp hsome
  refine ⟨m, hm, ?_⟩
  have := List.find?_some hm
  simpa using this

/-! ## `_build_children_map` and `_get_descendants` -/

/-- `children.setdefault(pid, []).append(n["id"])` on an association list. -/
def addChild : List (String × List String) → String → String → List (String × List String)
  | [], p, c => [(p, [c])]
  | (q, l) :: rest, p, c =>
    if q == p then (q, l ++ [c]) :: rest else (q, l) :: addChild rest p c

/-- `_build_children_map(nodes)`: parent id → child ids, in node order.
A falsy parent (missing key or empty string) is skipped (`if pid:`). -/
def buildChildrenMap (ns : List Node) : List (String × List String) :=
  ns.foldl (fun m n =>
    match n.parent with
    | some p => if p == "" then m else addChild m p n.id
    | none => m) []

/-- `children_map.get(node_id, [])`. -/
def childrenOf (m : List (String × List String)) (k : String) : List String :=
  (lookupA m k).getD []

theorem childrenOf_nil (q : String) : childrenOf [] q = [] := rfl

theorem childrenOf_cons {a : String} {l : List String}
    {rest : List (String × List String)} {q : String} :
    childrenOf ((a, l) :: rest) q = if a = q then l else childrenOf rest q := by
  by_cases h : a = q
  · simp [childrenOf, lookupA, List.find?, h]
  · have hb : (a == q) = false := by simpa using h
    simp [childrenOf, lookupA, List.find?, hb, h]

theorem childrenOf_addChild_self (m : List (String × List String)) (p x : String) :
    childrenOf (addChild m p x) p = childrenOf m p ++ [x] := by
  induction m with
  | nil => simp [addChild, childrenOf_cons, childrenOf_nil]
  | cons hd rest ih =>
    obtain ⟨q, l⟩ := hd
    by_cases h : q = p
    · subst h
      simp [addChild, childrenOf_cons]
    · have hb : (q == p) = false := by simpa using h
      simp only [addChild, hb, Bool.false_eq_true, if_neg, not_false_iff]
      rw [childrenOf_cons, childrenOf_cons, if_neg h, if_neg h, ih]

theorem childrenOf_addChild_other {m : List (String × List String)} {p x q : String}
    (h : q ≠ p) : childrenOf (addChild m p x) q = childrenOf m q := by
  induction m with
  | nil =>
    show childrenOf [(p, [x])] q = childrenOf [] q
    rw [childrenOf_cons, if_neg (fun hh => h hh.symm), childrenOf_nil]
  | cons hd rest ih =>
    obtain ⟨a, l⟩ := hd
    by_cases ha : a = p
    · subst ha
      have hb : (a == a) = true := by simp
      simp only [addChild, hb, if_pos]
      rw [childrenOf_cons, childrenOf_cons, if_neg (fun hh => h hh.symm),
        if_neg (fun hh => h hh.symm)]
    · have hb : (a == p) = false := by simpa using ha
      simp only [addChild, hb, Bool.false_eq_true, if_neg, not_false_iff]
      rw [childrenOf_cons, childrenOf_cons, ih]

/-- The single fold step of `_build_children_map`. -/
def childStep (m : List (String × List String)) (n : Node) :
    List (String × List String) :=
  match n.parent with
  | some p => if p == "" then m else addChild m p n.id
  | none => m

theorem buildChildrenMap_eq_foldl (ns : List Node) :
    buildChildrenMap ns = ns.foldl childStep [] := rfl

theorem mem_childrenOf_childStep {m : List (String × List String)} {n : Node}
    {q x : String} (h : x ∈ childrenOf (childStep m n) q) :
    x ∈ childrenOf m q ∨ x = n.id := by
  unfold childStep at h
  cases hpar : n.parent with
  | none => rw [hpar] at h; exact Or.inl h
  | some pp =>
    rw [hpar] at h
    simp only at h
    cases hpp : (pp == "") with
    | true => rw [if_pos hpp] at h; exact Or.inl h
    | false =>
      rw [if_neg (fun hc => by rw [hc] at hpp; cases hpp)] at h
      by_cases hq : q = pp
      · subst hq
        rw [childrenOf_addChild_self] at h
        rcases List.mem_append.mp h with h | h
        · exact Or.inl h
        · simp only [List.mem_singleton] at h
          exact Or.inr h
      · rw [childrenOf_addChild_other hq] at h
        exact Or.inl h

/-- Every id in a `buildChildrenMap` bucket is the id of some node of the list. -/
theorem mem_childrenOf_buildChildrenMap {ns : List Node} {p c : String}
    (h : c ∈ childrenOf (buildChildrenMap ns) p) : ∃ n ∈ ns, n.id = c := by
  have H : ∀ (l : List Node) (P : String → Prop) (m : List (String × List String)),
      (∀ n ∈ l, P n.id) → (∀ q x, x ∈ childrenOf m q → P x) →
      ∀ q x, x ∈ childrenOf (l.foldl childStep m) q → P x := by
    intro l
    induction l with
    | nil => intro P m _ hm q x hx; exact hm q x hx
    | cons n rest ih =>
      intro P m hl hm q x hx
      simp only [List.foldl_cons] at hx
      refine ih P (childStep m n) (fun n' hn' => hl n' (List.mem_cons_of_mem _ hn')) ?_ q x hx
      intro q' x' hx'
      rcases mem_childrenOf_childStep hx' with hx' | rfl
      · exact hm q' x' hx'
      · exact hl n (List.mem_cons_self _ _)
  rw [buildChildrenMap_eq_foldl] at h
  exact H ns (fun x => ∃ n ∈ ns, n.id = x) []
    (fun n hn => ⟨n, hn, rfl⟩)
    (fun q x hx => by rw [childrenOf_nil] at hx; cases hx) p c h

/-- One saturation step: a set together with all children of its members.
`_get_descendants` explores the children map with a stack and a visited set;
it returns exactly the set of ids reachable from the start node in one or
more child steps, which is what iterating this step to a fixpoint computes. -/
def descStep (m : List (String × List String)) (s : List String) : List String :=
  pyDedup (s ++ s.flatMap (childrenOf m))

/-- All ids occurring in any bucket of the children map. -/
def childUniverse (m : List (String × List String)) : List String :=
  (m.map (·.2)).flatten

/-- Enough iterations to reach the fixpoint (the reachable set grows strictly
until it stabilises, and it is bounded by the bucket contents). -/
def descFuel (m : List (String × List String)) : Nat :=
  (childUniverse m).length + 1

/-- `_get_descendants(node_id, children_map)` as the saturated reachable set. -/
def descendants (m : List (String × List String)) (r : String) : List String :=
  (descStep m)^[descFuel m] (pyDedup (childrenOf m r))

theorem mem_descStep {m : List (String × List String)} {s : List String}
    {a : String} :
    a ∈ descStep m s ↔ a ∈ s ∨ ∃ y ∈ s, a ∈ childrenOf m y := by
  simp [descStep, mem_pyDedup, List.mem_append, List.mem_flatMap]

theorem subset_descStep {m : List (String × List String)} {s : List String} :
    s ⊆ descStep m s := fun _ h => mem_descStep.mpr (Or.inl h)

theorem descStep_mono {m : List (String × List String)} {s t : List String}
    (h : s ⊆ t) : descStep m s ⊆ descStep m t := by
  intro a ha
  rcases mem_descStep.mp ha with ha | ⟨y, hy, hc⟩
  · exact mem_descStep.mpr (Or.inl (h ha))
  · exact mem_descStep.mpr (Or.inr ⟨y, h hy, hc⟩)

theorem descStep_congr {m : List (String × List String)} {s t : List String}
    (h : ∀ x, x ∈ s ↔ x ∈ t) : ∀ x, x ∈ descStep m s ↔ x ∈ descStep m t := by
  intro a
  constructor
  · intro ha
    rcases mem_descStep.mp ha with ha | ⟨y, hy, hc⟩
    · exact mem_descStep.mpr (Or.inl ((h a).mp ha))
    · exact mem_descStep.mpr (Or.inr ⟨y, (h y).mp hy, hc⟩)
  · intro ha
    rcases mem_descStep.mp ha with ha | ⟨y, hy, hc⟩
    · exact mem_descStep.mpr (Or.inl ((h a).mpr ha))
    · exact mem_descStep.mpr (Or.inr ⟨y, (h y).mpr hy, hc⟩)

theorem childrenOf_subset_universe (m : List (String × List String)) (k : String) :
    childrenOf m k ⊆ childUniverse m := by
  intro a ha
  unfold childrenOf lookupA at ha
  cases hf : m.find? (fun p => p.1 == k) with
  | none => rw [hf] at ha; cases ha
  | some pr =>
    rw [hf] at ha
    simp only [Option.map_some', Option.getD_some] at ha
    have hmem : pr ∈ m := List.mem_of_find?_eq_some hf
    unfold childUniverse
    rw [List.mem_flatten]
    exact ⟨pr.2, List.mem_map.mpr ⟨pr, hmem, rfl⟩, ha⟩

theorem descStep_subset_universe {m : List (String × List String)}
    {s : List String} (h : s ⊆ childUniverse m) :
    descStep m s ⊆ childUniverse m := by
  intro a ha
  rcases mem_descStep.mp ha with ha | ⟨y, _, hc⟩
  · exact h ha
  · exact childrenOf_subset_universe m y hc

theorem nodup_descStep (m : List (String × List String)) (s : List String) :
    (descStep m s).Nodup := nodup_pyDedup _

theorem iterate_descStep_subset_universe {m : List (String × List String)}
    {s : List String} (h : s ⊆ childUniverse m) (k : Nat) :
    (descStep m)^[k] s ⊆ childUniverse m := by
  induction k with
  | zero => simpa using h
  | succ k ih =>
    rw [Function.iterate_succ_apply']
    exact descStep_subset_universe ih

theorem iterate_descStep_nodup {m : List (String × List String)}
    {s : List String} (h : s.Nodup) (k : Nat) :
    ((descStep m)^[k] s).Nodup := by
  cases k with
  | zero => simpa only [Function.iterate_zero_apply] using h
  | succ k =>
    rw [Function.iterate_succ_apply']
    exact nodup_descStep m _

theorem iterate_descStep_le_succ (m : List (String × List String))
    (s : List String) (k : Nat) :
    (descStep m)^[k] s ⊆ (descStep m)^[k + 1] s := by
  induction k with
  | zero =>
    simpa only [Function.iterate_zero_apply, Function.iterate_one] using
      (subset_descStep (m := m) (s := s))
  | succ k ih =>
    rw [Function.iterate_succ_apply', Function.iterate_succ_apply']
    exact descStep_mono ih

theorem iterate_descStep_mono (m : List (String × List String))
    (s : List String) {j k : Nat} (h : j ≤ k) :
    (descStep m)^[j] s ⊆ (descStep m)^[k] s := by
  induction k with
  | zero =>
    have : j = 0 := Nat.le_zero.mp h
    subst this; exact fun _ h => h
  | succ k ih =>
    rcases Nat.lt_or_ge j (k + 1) with hj | hj
    · exact fun a ha =>
        iterate_descStep_le_succ m s k (ih (Nat.lt_succ_iff.mp hj) ha)
    · have : j = k + 1 := Nat.le_antisymm h hj
      subst this; exact fun _ h => h

/-- If no iteration up to `n` has stabilised, the sets grow strictly, so the
`n`-th set has at least `n` elements. -/
theorem iterate_descStep_length_ge {m : List (String × List String)}
    {s : List String} (hnd : s.Nodup) (n : Nat)
    (h : ∀ j < n, ¬ ((descStep m)^[j + 1] s ⊆ (descStep m)^[j] s)) :
    n ≤ ((descStep m)^[n] s).length := by
  induction n with
  | zero => exact Nat.zero_le _
  | succ n ih =>
    have hn := ih (fun j hj => h j (Nat.lt_succ_of_lt hj))
    have hstrict := h n (Nat.lt_succ_self n)
    obtain ⟨x, hx1, hx2⟩ : ∃ x, x ∈ (descStep m)^[n + 1] s ∧
        x ∉ (descStep m)^[n] s := by
      by_contra hc
      push_neg at hc
      exact hstrict (fun a ha => hc a ha)
    have hsub : x :: (descStep m)^[n] s ⊆ (descStep m)^[n + 1] s := by
      intro a ha
      rcases List.mem_cons.mp ha with rfl | ha
      · exact hx1
      · exact iterate_descStep_le_succ m s n ha
    have hnd' : (x :: (descStep m)^[n] s).Nodup :=
      List.Nodup.cons hx2 (iterate_descStep_nodup hnd n)
    have := (hnd'.subperm hsub).length_le
    simpa using Nat.lt_of_lt_of_le (Nat.lt_succ_of_le hn) this

/-- Some iteration index at or below the universe size is a fixpoint. -/
theorem exists_descStep_fixpoint (m : List (String × List String))
    {s : List String} (hnd : s.Nodup) (hsub : s ⊆ childUniverse m) :
    ∃ j ≤ (childUniverse m).length,
      (descStep m)^[j + 1] s ⊆ (descStep m)^[j] s := by
  by_contra hc
  push_neg at hc
  have h : ∀ j < (childUniverse m).length + 1,
      ¬ ((descStep m)^[j + 1] s ⊆ (descStep m)^[j] s) := by
    intro j hj
    exact hc j (Nat.lt_succ_iff.mp hj)
  have hge := iterate_descStep_length_ge hnd ((childUniverse m).length + 1) h
  have hle : ((descStep m)^[(childUniverse m).length + 1] s).length ≤
      (childUniverse m).length := by
    have hnd' := iterate_descStep_nodup (m := m) hnd ((childUniverse m).length + 1)
    have hsub' := iterate_descStep_subset_universe hsub ((childUniverse m).length + 1)
    exact (hnd'.subperm hsub').length_le
  omega

/-- Once a fixpoint is reached, later iterates have the same members. -/
theorem iterate_descStep_stable {m : List (String × List String)}
    {s : List String} {j : Nat}
    (hfix : (descStep m)^[j + 1] s ⊆ (descStep m)^[j] s) :
    ∀ k, j ≤ k → ∀ x, (x ∈ (descStep m)^[k] s ↔ x ∈ (descStep m)^[j] s) := by
  intro k hk
  induction k, hk using Nat.le_induction with
  | base => intro x; exact Iff.rfl
  | succ k hk ih =>
    intro x
    constructor
    · intro hx
      rw [Function.iterate_succ_apply'] at hx
      have h1 : x ∈ descStep m ((descStep m)^[j] s) := (descStep_congr ih x).mp hx
      have h2 : x ∈ (descStep m)^[j + 1] s := by
        rw [Function.iterate_succ_apply']
        exact h1
      exact hfix h2
    · intro hx
      rw [Function.iterate_succ_apply']
      have hj1 : x ∈ (descStep m)^[j + 1] s := iterate_descStep_le_succ m s j hx
      rw [Function.iterate_succ_apply'] at hj1
      exact (descStep_congr ih x).mpr hj1

/-- Completeness of `_get_descendants`: everything reachable from `r` in one
or more steps of the child relation is in the computed descendant set. -/
theorem mem_descendants_of_transGen {m : List (String × List String)}
    {r d : String}
    (h : Relation.TransGen (fun x y => y ∈ childrenOf m x) r d) :
    d ∈ descendants m r := by
  have hnd : (pyDedup (childrenOf m r)).Nodup := nodup_pyDedup _
  have hsub : pyDedup (childrenOf m r) ⊆ childUniverse m := by
    intro a ha
    exact childrenOf_subset_universe m r (mem_pyDedup.mp ha)
  have hex : ∃ k, d ∈ (descStep m)^[k] (pyDedup (childrenOf m r)) := by
    induction h with
    | single h => exact ⟨0, by simpa [mem_pyDedup] using h⟩
    | tail _ hstep ih =>
      obtain ⟨k, hk⟩ := ih
      refine ⟨k + 1, ?_⟩
      rw [Function.iterate_succ_apply']
      exact mem_descStep.mpr (Or.inr ⟨_, hk, hstep⟩)
  obtain ⟨k, hk⟩ := hex
  unfold descendants
  rcases le_or_lt k (descFuel m) with hkf | hkf
  · exact iterate_descStep_mono m _ hkf hk
  · obtain ⟨j, hj, hfix⟩ := exists_descStep_fixpoint m hnd hsub
    have hjk : j ≤ k := by
      unfold descFuel at hkf
      omega
    have hmem : d ∈ (descStep m)^[j] (pyDedup (childrenOf m r)) :=
      (iterate_descStep_stable hfix k hjk d).mp hk
    have hjf : j ≤ descFuel m := by
      unfold descFuel
      omega
    exact iterate_descStep_mono m _ hjf hmem

/-! ## Diff output records -/

/-- `_node_summary(node)` result: `{id, name, abstraction_level, lines_of_code}`. -/
structure NodeSummary where
  id : String
  name : String
  abstraction_level : Int
  lines_of_code : Int
deriving DecidableEq

def nodeSummary (n : Node) : NodeSummary :=
  { id := n.id
    name := n.name
    abstraction_level := n.abstraction_level.getD 0
    lines_of_code := n.lines_of_code.getD 0 }

/-- A `moved_nodes` entry. -/
structure MovedNode where
  id : String
  old_id : String
  name : String
  old_file_path : Option String
  new_file_path : Option String
  abstraction_level : Int
deriving DecidableEq

/-- The value of one entry of a `modified_nodes` `changes` dict: a pair of
ints for the scalar fields, a pair of booleans for the synthetic
`children_changed` marker. -/
inductive ChangeVal where
  | ints (a b : Int)
  | flags (a b : Bool)
deriving DecidableEq

/-- A `modified_nodes` entry. -/
structure ModifiedNode where
  id : String
  changes : List (String × ChangeVal)
deriving DecidableEq

/-- An entry of `added_edges`/`removed_edges`: note the source rebuilds these
dicts from the `(from, to, type)` triple, without a `weight` key. -/
structure DiffEdge where
  from_ : String
  to_ : String
  type : String
deriving DecidableEq

structure DiffSummary where
  added_nodes : Nat
  removed_nodes : Nat
  moved_nodes : Nat
  modified_nodes : Nat
  added_edges : Nat
  removed_edges : Nat
deriving DecidableEq

structure Diff where
  meta : List (String × String)
  summary : DiffSummary
  added_nodes : List NodeSummary
  removed_nodes : List NodeSummary
  moved_nodes : List MovedNode
  modified_nodes : List ModifiedNode
  added_edges : List DiffEdge
  removed_edges : List DiffEdge
deriving DecidableEq

/-- `_detect_changes(node_a, node_b)`: compare `lines_of_code`,
`export_count`, `abstraction_level`; keep fields that differ and are
non-null on both sides, in that fixed order. -/
def detectChanges (na nb : Node) : List (String × ChangeVal) :=
  (match na.lines_of_code, nb.lines_of_code with
   | some a, some b => if a ≠ b then [("lines_of_code", ChangeVal.ints a b)] else []
   | _, _ => []) ++
  (match na.export_count, nb.export_count with
   | some a, some b => if a ≠ b then [("export_count", ChangeVal.ints a b)] else []
   | _, _ => []) ++
  (match na.abstraction_level, nb.abstraction_level with
   | some a, some b => if a ≠ b then [("abstraction_level", ChangeVal.ints a b)] else []
   | _, _ => [])

theorem detectChanges_self (n : Node) : detectChanges n n = [] := by
  unfold detectChanges
  cases n.lines_of_code <;> cases n.export_count <;> cases n.abstraction_level <;>
    simp

/-! ## Move detection -/

/-- `removed_by_name`: bucket the cascaded removed ids by the name the node
carries in graph A.  The source iterates the Python set `cascaded_removed`
here, whose order is unspecified (hash-dependent); the caller passes the
canonical ascending enumeration. -/
def buildByName (ga : Graph) (rids : List String) : List (String × List String) :=
  rids.foldl (fun m rid =>
    addChild m ((lookupNode ga.nodes rid).getD panicNode).name rid) []

/-- `if name in removed_by_name and removed_by_name[name]: rid =
removed_by_name[name].pop(0)` — take the first entry of a non-empty bucket. -/
def popBucket (m : List (String × List String)) (k : String) :
    Option (String × List (String × List String)) :=
  match m with
  | [] => none
  | (q, l) :: rest =>
    if q == k then
      match l with
      | [] => none
      | r :: l' => some (r, (q, l') :: rest)
    else
      match popBucket rest k with
      | some (r, rest') => some (r, (q, l) :: rest')
      | none => none

/-- State of the move-detection loop. -/
structure PairState where
  byName : List (String × List String)
  moved : List MovedNode
  remAdded : List String
  remRemoved : List String

/-- One iteration of `for aid in sorted(cascaded_added)`. -/
def pairStep (ga gb : Graph) (s : PairState) (aid : String) : PairState :=
  let nb := (lookupNode gb.nodes aid).getD panicNode
  match popBucket s.byName nb.name with
  | some (rid, by') =>
    let na := (lookupNode ga.nodes rid).getD panicNode
    { byName := by'
      moved := s.moved ++ [{ id := aid
                             old_id := rid
                             name := nb.name
                             old_file_path := na.file_path
                             new_file_path := nb.file_path
                             abstraction_level := nb.abstraction_level.getD 0 }]
      remAdded := s.remAdded.filter (fun x => !(x == aid))
      remRemoved := s.remRemoved.filter (fun x => !(x == rid)) }
  | none => s

/-- The whole move-detection pass over the cascaded added/removed sets. -/
def movePairing (ga gb : Graph) (cascAdded cascRemoved : List String) : PairState :=
  (sortStr cascAdded).foldl (pairStep ga gb)
    { byName := buildByName ga (sortStr cascRemoved)
      moved := []
      remAdded := cascAdded
      remRemoved := cascRemoved }

/-! ## Modified detection and upward bubbling -/

def modifiedBase (ga gb : Graph) (commonIds : List String) : List ModifiedNode :=
  commonIds.filterMap (fun nid =>
    let ch := detectChanges ((lookupNode ga.nodes nid).getD panicNode)
      ((lookupNode gb.nodes nid).getD panicNode)
    if ch.isEmpty then none else some { id := nid, changes := ch })

structure BubbleState where
  modifiedIds : List String
  modifiedNodes : List ModifiedNode
  allChanged : List String

/-- Python truthiness of the parent value in `while pid:`. -/
def truthyParent : Option String → Option String
  | some p => if p == "" then none else some p
  | none => none

/-- The `while pid:` walk up the parent chain for one changed id.  The source
can loop forever when parent fields form a cycle through nodes missing from
one of the graphs; the fuel passed by `compute_diff` exceeds the combined
node count, which covers every terminating (acyclic) run. -/
def bubbleWalk (ga gb : Graph) (already : List String) :
    Nat → BubbleState → Option String → BubbleState
  | 0, st, _ => st
  | _, st, none => st
  | fuel + 1, st, some pid =>
    if already.contains pid || st.modifiedIds.contains pid then st
    else
      let mark := (idsOf ga).contains pid && (idsOf gb).contains pid &&
        !(st.allChanged.contains pid)
      let st' := if mark then
        { modifiedIds := st.modifiedIds ++ [pid]
          modifiedNodes := st.modifiedNodes ++
            [{ id := pid, changes := [("children_changed", ChangeVal.flags true true)] }]
          allChanged := st.allChanged ++ [pid] }
        else st
      let parentNode := (lookupNode gb.nodes pid).orElse (fun _ => lookupNode ga.nodes pid)
      bubbleWalk ga gb already fuel st'
        (match parentNode with
         | some n => truthyParent n.parent
         | none => none)

/-- One iteration of `for cid in list(all_changed_ids)` (snapshot of the set,
enumerated canonically in ascending order). -/
def bubbleStart (ga gb : Graph) (already : List String) (fuel : Nat)
    (st : BubbleState) (cid : String) : BubbleState :=
  match (lookupNode gb.nodes cid).orElse (fun _ => lookupNode ga.nodes cid) with
  | none => st
  | some n => bubbleWalk ga gb already fuel st (truthyParent n.parent)

/-! ## Edge diff helpers -/

def edgeTriple (e : Edge) : String × String × String := (e.from_, e.to_, e.type)

/-- Lexicographic order on `(from, to, type)` triples (Python tuple sort). -/
def tripLt (a b : String × String × String) : Bool :=
  strLtB a.1 b.1 ||
    (a.1 == b.1 && (strLtB a.2.1 b.2.1 ||
      (a.2.1 == b.2.1 && strLtB a.2.2 b.2.2)))

def insertTrip (x : String × String × String) :
    List (String × String × String) → List (String × String × String)
  | [] => [x]
  | y :: ys => if tripLt y x then y :: insertTrip x ys else x :: y :: ys

def sortTrips (l : List (String × String × String)) :
    List (String × String × String) := l.foldr insertTrip []

theorem mem_insertTrip {a x : String × String × String}
    {l : List (String × String × String)} :
    a ∈ insertTrip x l ↔ a = x ∨ a ∈ l := by
  induction l with
  | nil => simp [insertTrip]
  | cons y ys ih =>
    cases h : tripLt y x with
    | true =>
      simp only [insertTrip, h, if_pos, List.mem_cons, ih]
      tauto
    | false =>
      simp only [insertTrip, h, Bool.false_eq_true, if_neg, not_false_iff,
        List.mem_cons]

theorem mem_sortTrips {a : String × String × String}
    {l : List (String × String × String)} :
    a ∈ sortTrips l ↔ a ∈ l := by
  induction l with
  | nil => simp [sortTrips]
  | cons y ys ih =>
    simp only [sortTrips, List.foldr] at *
    rw [mem_insertTrip, ih]
    simp

/-! ## `compute_diff`, staged -/

/-- `raw_added_ids = ids_b - ids_a`. -/
def rawAdded (ga gb : Graph) : List String :=
  (idsOf gb).filter (fun i => !((idsOf ga).contains i))

/-- `raw_removed_ids = ids_a - ids_b`. -/
def rawRemoved (ga gb : Graph) : List String :=
  (idsOf ga).filter (fun i => !((idsOf gb).contains i))

/-- `cascaded_removed`: each raw-removed id plus all its descendants in A's
children map, intersected with `ids_a`. -/
def cascadedRemoved (ga gb : Graph) : List String :=
  (pyDedup ((rawRemoved ga gb).flatMap
    (fun r => r :: descendants (buildChildrenMap ga.nodes) r))).filter
    (fun i => (idsOf ga).contains i)

/-- `cascaded_added`: each raw-added id plus all its descendants in B's
children map, intersected with `ids_b`. -/
def cascadedAdded (ga gb : Graph) : List String :=
  (pyDedup ((rawAdded ga gb).flatMap
    (fun a => a :: descendants (buildChildrenMap gb.nodes) a))).filter
    (fun i => (idsOf gb).contains i)

def diffPairing (ga gb : Graph) : PairState :=
  movePairing ga gb (cascadedAdded ga gb) (cascadedRemoved ga gb)

def diffAddedNodes (ga gb : Graph) : List NodeSummary :=
  (sortStr (diffPairing ga gb).remAdded).map
    (fun nid => nodeSummary ((lookupNode gb.nodes nid).getD panicNode))

def diffRemovedNodes (ga gb : Graph) : List NodeSummary :=
  (sortStr (diffPairing ga gb).remRemoved).map
    (fun nid => nodeSummary ((lookupNode ga.nodes nid).getD panicNode))

def alreadyCategorized (ga gb : Graph) : List String :=
  (diffPairing ga gb).remAdded ++ (diffPairing ga gb).remRemoved ++
    (diffPairing ga gb).moved.map (·.id) ++ (diffPairing ga gb).moved.map (·.old_id)

def commonIds (ga gb : Graph) : List String :=
  ((idsOf ga).filter (fun i => (idsOf gb).contains i)).filter
    (fun i => !((alreadyCategorized ga gb).contains i))

def diffModified0 (ga gb : Graph) : List ModifiedNode :=
  modifiedBase ga gb (sortStr (commonIds ga gb))

def allChanged0 (ga gb : Graph) : List String :=
  pyDedup ((diffPairing ga gb).remAdded ++ (diffPairing ga gb).remRemoved ++
    (diffModified0 ga gb).map (·.id) ++ (diffPairing ga gb).moved.map (·.id))

def diffBubble (ga gb : Graph) : BubbleState :=
  (sortStr (allChanged0 ga gb)).foldl
    (bubbleStart ga gb (alreadyCategorized ga gb)
      (ga.nodes.length + gb.nodes.length + 1))
    { modifiedIds := (diffModified0 ga gb).map (·.id)
      modifiedNodes := diffModified0 ga gb
      allChanged := allChanged0 ga gb }

def diffModifiedNodes (ga gb : Graph) : List ModifiedNode :=
  (diffBubble ga gb).modifiedNodes

def diffAddedEdges (ga gb : Graph) : List DiffEdge :=
  (sortTrips ((pyDedup (gb.edges.map edgeTriple)).filter
    (fun t => !((pyDedup (ga.edges.map edgeTriple)).contains t)))).map
    (fun t => DiffEdge.mk t.1 t.2.1 t.2.2)

def diffRemovedEdges (ga gb : Graph) : List DiffEdge :=
  (sortTrips ((pyDedup (ga.edges.map edgeTriple)).filter
    (fun t => !((pyDedup (gb.edges.map edgeTriple)).contains t)))).map
    (fun t => DiffEdge.mk t.1 t.2.1 t.2.2)

/-- `compute_diff(graph_a, graph_b, meta=None)`. -/
def compute_diff (graph_a graph_b : Graph)
    (meta : List (String × String) := []) : Diff :=
  { meta := meta
    summary :=
      { added_nodes := (diffAddedNodes graph_a graph_b).length
        removed_nodes := (diffRemovedNodes graph_a graph_b).length
        moved_nodes := (diffPairing graph_a graph_b).moved.length
        modified_nodes := (diffModifiedNodes graph_a graph_b).length
        added_edges := (diffAddedEdges graph_a graph_b).length
        removed_edges := (diffRemovedEdges graph_a graph_b).length }
    added_nodes := diffAddedNodes graph_a graph_b
    removed_nodes := diffRemovedNodes graph_a graph_b
    moved_nodes := (diffPairing graph_a graph_b).moved
    modified_nodes := diffModifiedNodes graph_a graph_b
    added_edges := diffAddedEdges graph_a graph_b
    removed_edges := diffRemovedEdges graph_a graph_b }

/-! ## C1: diff idempotence -/

theorem filter_not_contains_self {α : Type} [BEq α] [LawfulBEq α] (l : List α) :
    l.filter (fun i => !(l.contains i)) = [] := by
  rw [List.filter_eq_nil_iff]
  intro a ha
  have hc : l.contains a = true := contains_iff.mpr ha
  rw [hc]
  simp

theorem modifiedBase_self (g : Graph) (l : List String) :
    modifiedBase g g l = [] := by
  unfold modifiedBase
  rw [List.filterMap_eq_nil_iff]
  intro nid _
  simp [detectChanges_self]

theorem movePairing_nil (ga gb : Graph) :
    movePairing ga gb [] [] =
      { byName := [], moved := [], remAdded := [], remRemoved := [] } := rfl

theorem rawRemoved_self (g : Graph) : rawRemoved g g = [] :=
  filter_not_contains_self _

theorem rawAdded_self (g : Graph) : rawAdded g g = [] :=
  filter_not_contains_self _

theorem cascadedRemoved_self (g : Graph) : cascadedRemoved g g = [] := by
  unfold cascadedRemoved
  rw [rawRemoved_self]
  rfl

theorem cascadedAdded_self (g : Graph) : cascadedAdded g g = [] := by
  unfold cascadedAdded
  rw [rawAdded_self]
  rfl

theorem diffPairing_self (g : Graph) :
    diffPairing g g = { byName := [], moved := [], remAdded := [], remRemoved := [] } := by
  unfold diffPairing
  rw [cascadedRemoved_self, cascadedAdded_self, movePairing_nil]

theorem diffModified0_self (g : Graph) : diffModified0 g g = [] :=
  modifiedBase_self _ _

theorem diffBubble_self (g : Graph) :
    diffBubble g g = { modifiedIds := [], modifiedNodes := [], allChanged := [] } := by
  unfold diffBubble allChanged0
  rw [diffPairing_self, diffModified0_self]
  rfl

/-- C1 — Diff idempotence: for every graph `G` with unique node ids,
`compute_diff(G, G)` has empty added/removed/moved/modified node lists and
empty added/removed edge lists, and its summary counts are all zero. -/
theorem compute_diff_idempotent (g : Graph) (meta : List (String × String))
    (h : (g.nodes.map (·.id)).Nodup) :
    compute_diff g g meta =
      { meta := meta
        summary := ⟨0, 0, 0, 0, 0, 0⟩
        added_nodes := []
        removed_nodes := []
        moved_nodes := []
        modified_nodes := []
        added_edges := []
        removed_edges := [] } := by
  have hadd : diffAddedNodes g g = [] := by
    unfold diffAddedNodes
    rw [diffPairing_self]
    rfl
  have hrem : diffRemovedNodes g g = [] := by
    unfold diffRemovedNodes
    rw [diffPairing_self]
    rfl
  have hmod : diffModifiedNodes g g = [] := by
    unfold diffModifiedNodes
    rw [diffBubble_self]
  have hae : diffAddedEdges g g = [] := by
    unfold diffAddedEdges
    rw [filter_not_contains_self]
    rfl
  have hre : diffRemovedEdges g g = [] := by
    unfold diffRemovedEdges
    rw [filter_not_contains_self]
    rfl
  unfold compute_diff
  rw [hadd, hrem, hmod, hae, hre, diffPairing_self]
  rfl

/-- Witness for C1 at a concrete two-node, one-edge graph. -/
theorem compute_diff_idempotent_witness :
    (((Graph.mk
        [ { id := "dir:a", name := "a" },
          { id := "file:a/b.py", name := "b.py", parent := some "dir:a",
            lines_of_code := some 10, abstraction_level := some 1 } ]
        [ { from_ := "dir:a", to_ := "file:a/b.py", type := "contains" } ]).nodes.map
          (·.id)).Nodup) ∧
    compute_diff
      (Graph.mk
        [ { id := "dir:a", name := "a" },
          { id := "file:a/b.py", name := "b.py", parent := some "dir:a",
            lines_of_code := some 10, abstraction_level := some 1 } ]
        [ { from_ := "dir:a", to_ := "file:a/b.py", type := "contains" } ])
      (Graph.mk
        [ { id := "dir:a", name := "a" },
          { id := "file:a/b.py", name := "b.py", parent := some "dir:a",
            lines_of_code := some 10, abstraction_level := some 1 } ]
        [ { from_ := "dir:a", to_ := "file:a/b.py", type := "contains" } ])
      [] =
      { meta := []
        summary := ⟨0, 0, 0, 0, 0, 0⟩
        added_nodes := []
        removed_nodes := []
        moved_nodes := []
        modified_nodes := []
        added_edges := []
        removed_edges := [] } :=
  ⟨by decide, compute_diff_idempotent _ [] (by decide)⟩

/-! ## C3: cascading removal / addition -/

theorem foldl_invariant {σ α : Type} {P : σ → Prop} (f : σ → α → σ)
    (l : List α) (init : σ) (h0 : P init)
    (hstep : ∀ s a, P s → P (f s a)) : P (l.foldl f init) := by
  induction l generalizing init with
  | nil => simpa using h0
  | cons a l ih =>
    rw [List.foldl_cons]
    exact ih _ (hstep init a h0)

/-- During move pairing, a cascaded-removed id either survives in the
remaining removed set or is recorded as the `old_id` of a moved entry. -/
theorem movePairing_removed_invariant (ga gb : Graph)
    (ca cr : List String) :
    ∀ x ∈ cr, x ∈ (movePairing ga gb ca cr).remRemoved ∨
      x ∈ (movePairing ga gb ca cr).moved.map (·.old_id) := by
  unfold movePairing
  refine foldl_invariant (P := fun (s : PairState) => ∀ x ∈ cr,
    x ∈ s.remRemoved ∨ x ∈ s.moved.map (·.old_id)) _ _ _ ?_ ?_
  · intro x hx
    exact Or.inl hx
  · intro s aid hP x hx
    unfold pairStep
    cases hpop : popBucket s.byName ((lookupNode gb.nodes aid).getD panicNode).name with
    | none => simpa [hpop] using hP x hx
    | some pr =>
      obtain ⟨rid, by'⟩ := pr
      simp only [hpop]
      rcases hP x hx with hmem | hmem
      · by_cases hxr : x = rid
        · subst hxr
          right
          simp
        · left
          rw [List.mem_filter]
          exact ⟨hmem, by simpa using hxr⟩
      · right
        simp only [List.map_append, List.mem_append]
        exact Or.inl hmem

/-- During move pairing, a cascaded-added id either survives in the remaining
added set or is recorded as the (new) `id` of a moved entry. -/
theorem movePairing_added_invariant (ga gb : Graph)
    (ca cr : List String) :
    ∀ x ∈ ca, x ∈ (movePairing ga gb ca cr).remAdded ∨
      x ∈ (movePairing ga gb ca cr).moved.map (·.id) := by
  unfold movePairing
  refine foldl_invariant (P := fun (s : PairState) => ∀ x ∈ ca,
    x ∈ s.remAdded ∨ x ∈ s.moved.map (·.id)) _ _ _ ?_ ?_
  · intro x hx
    exact Or.inl hx
  · intro s aid hP x hx
    unfold pairStep
    cases hpop : popBucket s.byName ((lookupNode gb.nodes aid).getD panicNode).name with
    | none => simpa [hpop] using hP x hx
    | some pr =>
      obtain ⟨rid, by'⟩ := pr
      simp only [hpop]
      rcases hP x hx with hmem | hmem
      · by_cases hxa : x = aid
        · subst hxa
          right
          simp
        · left
          rw [List.mem_filter]
          exact ⟨hmem, by simpa using hxa⟩
      · right
        simp only [List.map_append, List.mem_append]
        exact Or.inl hmem

theorem mem_rawRemoved {ga gb : Graph} {r : String}
    (hA : r ∈ idsOf ga) (hB : r ∉ idsOf gb) : r ∈ rawRemoved ga gb := by
  unfold rawRemoved
  rw [List.mem_filter]
  refine ⟨hA, ?_⟩
  cases hc : (idsOf gb).contains r with
  | true => exact absurd (contains_iff.mp hc) hB
  | false => simp

theorem mem_rawAdded {ga gb : Graph} {a : String}
    (hB : a ∈ idsOf gb) (hA : a ∉ idsOf ga) : a ∈ rawAdded ga gb := by
  unfold rawAdded
  rw [List.mem_filter]
  refine ⟨hB, ?_⟩
  cases hc : (idsOf ga).contains a with
  | true => exact absurd (contains_iff.mp hc) hA
  | false => simp

/-- A node reachable by child steps from a node of the graph is itself a node
of the graph. -/
theorem transGen_target_mem_ids {g : Graph} {r d : String}
    (h : Relation.TransGen
      (fun x y => y ∈ childrenOf (buildChildrenMap g.nodes) x) r d) :
    d ∈ idsOf g := by
  have : ∃ x, d ∈ childrenOf (buildChildrenMap g.nodes) x := by
    cases h with
    | single h => exact ⟨r, h⟩
    | tail _ h => exact ⟨_, h⟩
  obtain ⟨x, hx⟩ := this
  exact mem_idsOf.mpr (mem_childrenOf_buildChildrenMap hx)

theorem mem_cascadedRemoved {ga gb : Graph} {r d : String}
    (hA : r ∈ idsOf ga) (hB : r ∉ idsOf gb)
    (hd : d = r ∨ Relation.TransGen
      (fun x y => y ∈ childrenOf (buildChildrenMap ga.nodes) x) r d) :
    d ∈ cascadedRemoved ga gb := by
  have hdA : d ∈ idsOf ga := by
    rcases hd with rfl | hd
    · exact hA
    · exact transGen_target_mem_ids hd
  unfold cascadedRemoved
  rw [List.mem_filter]
  refine ⟨?_, by rw [contains_iff.mpr hdA]⟩
  rw [mem_pyDedup, List.mem_flatMap]
  refine ⟨r, mem_rawRemoved hA hB, ?_⟩
  rcases hd with rfl | hd
  · exact List.mem_cons_self _ _
  · exact List.mem_cons_of_mem _ (mem_descendants_of_transGen hd)

theorem mem_cascadedAdded {ga gb : Graph} {a d : String}
    (hB : a ∈ idsOf gb) (hA : a ∉ idsOf ga)
    (hd : d = a ∨ Relation.TransGen
      (fun x y => y ∈ childrenOf (buildChildrenMap gb.nodes) x) a d) :
    d ∈ cascadedAdded ga gb := by
  have hdB : d ∈ idsOf gb := by
    rcases hd with rfl | hd
    · exact hB
    · exact transGen_target_mem_ids hd
  unfold cascadedAdded
  rw [List.mem_filter]
  refine ⟨?_, by rw [contains_iff.mpr hdB]⟩
  rw [mem_pyDedup, List.mem_flatMap]
  refine ⟨a, mem_rawAdded hB hA, ?_⟩
  rcases hd with rfl | hd
  · exact List.mem_cons_self _ _
  · exact List.mem_cons_of_mem _ (mem_descendants_of_transGen hd)

theorem mem_diffRemovedNodes_ids {ga gb : Graph} {d : String}
    (hmem : d ∈ (diffPairing ga gb).remRemoved) (hdA : d ∈ idsOf ga) :
    d ∈ (diffRemovedNodes ga gb).map (·.id) := by
  obtain ⟨n, hn, hid⟩ := lookupNode_eq_some_of_mem (mem_idsOf.mp hdA)
  rw [List.mem_map]
  refine ⟨nodeSummary ((lookupNode ga.nodes d).getD panicNode), ?_, ?_⟩
  · unfold diffRemovedNodes
    exact List.mem_map.mpr ⟨d, mem_sortStr.mpr hmem, rfl⟩
  · rw [hn]
    simpa [nodeSummary] using hid

theorem mem_diffAddedNodes_ids {ga gb : Graph} {d : String}
    (hmem : d ∈ (diffPairing ga gb).remAdded) (hdB : d ∈ idsOf gb) :
    d ∈ (diffAddedNodes ga gb).map (·.id) := by
  obtain ⟨n, hn, hid⟩ := lookupNode_eq_some_of_mem (mem_idsOf.mp hdB)
  rw [List.mem_map]
  refine ⟨nodeSummary ((lookupNode gb.nodes d).getD panicNode), ?_, ?_⟩
  · unfold diffAddedNodes
    exact List.mem_map.mpr ⟨d, mem_sortStr.mpr hmem, rfl⟩
  · rw [hn]
    simpa [nodeSummary] using hid

/-- C3 — Cascading removal/addition: every id of A missing from B pulls each
of its transitive descendants (via A's parent/children adjacency) into the
removed output — the descendant shows up in `removed_nodes` unless it was
absorbed into `moved_nodes` as a same-named match (as an `old_id`).
Symmetrically, every id of B missing from A pulls its transitive descendants
(via B's adjacency) into `added_nodes` or `moved_nodes` (as a new `id`). -/
theorem compute_diff_cascades (ga gb : Graph) (meta : List (String × String)) :
    (∀ r d, r ∈ idsOf ga → r ∉ idsOf gb →
      (d = r ∨ Relation.TransGen
        (fun x y => y ∈ childrenOf (buildChildrenMap ga.nodes) x) r d) →
      d ∈ (compute_diff ga gb meta).removed_nodes.map (·.id) ∨
        d ∈ (compute_diff ga gb meta).moved_nodes.map (·.old_id)) ∧
    (∀ a d, a ∈ idsOf gb → a ∉ idsOf ga →
      (d = a ∨ Relation.TransGen
        (fun x y => y ∈ childrenOf (buildChildrenMap gb.nodes) x) a d) →
      d ∈ (compute_diff ga gb meta).added_nodes.map (·.id) ∨
        d ∈ (compute_diff ga gb meta).moved_nodes.map (·.id)) := by
  constructor
  · intro r d hA hB hd
    have hcasc := mem_cascadedRemoved hA hB hd
    have hdA : d ∈ idsOf ga := by
      rcases hd with rfl | hd
      · exact hA
      · exact transGen_target_mem_ids hd
    rcases movePairing_removed_invariant ga gb (cascadedAdded ga gb)
        (cascadedRemoved ga gb) d hcasc with hmem | hmem
    · exact Or.inl (mem_diffRemovedNodes_ids hmem hdA)
    · exact Or.inr hmem
  · intro a d hB hA hd
    have hcasc := mem_cascadedAdded hB hA hd
    have hdB : d ∈ idsOf gb := by
      rcases hd with rfl | hd
      · exact hB
      · exact transGen_target_mem_ids hd
    rcases movePairing_added_invariant ga gb (cascadedAdded ga gb)
        (cascadedRemoved ga gb) d hcasc with hmem | hmem
    · exact Or.inl (mem_diffAddedNodes_ids hmem hdB)
    · exact Or.inr hmem

/-- Example: directory `D` containing file `F` containing function `f`. -/
def exDirGraph : Graph :=
  { nodes := [ { id := "dir:D", type := "directory", name := "D" },
               { id := "file:D/F.py", name := "F.py", parent := some "dir:D" },
               { id := "func:D/F.py:f", type := "function", name := "f",
                 parent := some "file:D/F.py" } ]
    edges := [] }

def noNodesGraph : Graph := { nodes := [], edges := [] }

/-- Witness for C3: removing directory `D` pulls file `F`'s function `f` into
the removed output; adding it pulls `f` into the added output. -/
theorem compute_diff_cascades_witness :
    ("func:D/F.py:f" ∈
        (compute_diff exDirGraph noNodesGraph []).removed_nodes.map (·.id) ∨
      "func:D/F.py:f" ∈
        (compute_diff exDirGraph noNodesGraph []).moved_nodes.map (·.old_id)) ∧
    ("func:D/F.py:f" ∈
        (compute_diff noNodesGraph exDirGraph []).added_nodes.map (·.id) ∨
      "func:D/F.py:f" ∈
        (compute_diff noNodesGraph exDirGraph []).moved_nodes.map (·.id)) := by
  have h1 : Relation.TransGen
      (fun x y => y ∈ childrenOf (buildChildrenMap exDirGraph.nodes) x)
      "dir:D" "file:D/F.py" := Relation.TransGen.single (by decide)
  have h2 : Relation.TransGen
      (fun x y => y ∈ childrenOf (buildChildrenMap exDirGraph.nodes) x)
      "dir:D" "func:D/F.py:f" := h1.tail (by decide)
  constructor
  · exact (compute_diff_cascades exDirGraph noNodesGraph []).1 "dir:D"
      "func:D/F.py:f" (by decide) (by decide) (Or.inr h2)
  · exact (compute_diff_cascades noNodesGraph exDirGraph []).2 "dir:D"
      "func:D/F.py:f" (by decide) (by decide) (Or.inr h2)

/-! ## C4: move precedence (violated by the code) -/

/-- Graph A of the violating input: directory `p` containing `c` (named `X`)
and `z` (named `N`). -/
def c4GraphA : Graph :=
  { nodes := [ { id := "p", type := "directory", name := "P" },
               { id := "c", name := "X", parent := some "p" },
               { id := "z", name := "N", parent := some "p" } ]
    edges := [] }

/-- Graph B of the violating input: new directory `q` containing `c`, which
is now named `N` (renamed and reparented). -/
def c4GraphB : Graph :=
  { nodes := [ { id := "q", type := "directory", name := "Q" },
               { id := "c", name := "N", parent := some "q" } ]
    edges := [] }

/-- C4 — the code violates move precedence: on the graphs above, node `c` is
cascaded into both the removed set (its parent `p` disappeared from A) and
the added set (its new parent `q` is new in B); move detection then pairs the
added `c` (named `N` in B) with the removed `z` (also named `N` in A), so the
moved entry `{id: c, old_id: z}` is emitted while `c` still remains in
`removed_nodes` — one node in two categories, contradicting the module's own
doc ("Each node appears in exactly one category") and the spec.  The result
does not depend on Python's set iteration order: every name bucket involved
is a singleton. -/
theorem compute_diff_move_precedence_violation :
    (compute_diff c4GraphA c4GraphB []).moved_nodes.map
        (fun m => (m.id, m.old_id)) = [("c", "z")] ∧
      "c" ∈ (compute_diff c4GraphA c4GraphB []).removed_nodes.map (·.id) := by
  decide

/-! ## C7: call extraction (`python_parser._extract_calls`,
`typescript_parser._extract_calls`) -/

/-- The `function` child of a Python `call` node: a bare identifier, an
attribute access (either field may be missing in a malformed tree), or any
other node type. -/
inductive PyCallee where
  | ident (name : String)
  | attribute (object : Option String) (attr : Option String)
  | other
deriving DecidableEq

/-- A Python AST subtree, as far as call extraction observes it: `call` nodes
carry their `function` child (if any); every node carries the child list the
walk recurses into. -/
inductive PyExpr where
  | call (function : Option PyCallee) (children : List PyExpr)
  | plain (children : List PyExpr)

mutual

/-- `python_parser._extract_calls`: record a bare identifier callee; for an
attribute callee with both `object` and `attribute` present, record only the
attribute name and skip it entirely when the object text is `self` or `cls`;
then recurse into all children. -/
def pyExtractCalls : PyExpr → List String
  | .call fn children =>
    (match fn with
     | some (.ident n) => [n]
     | some (.attribute (some obj) (some attr)) =>
       if obj == "self" || obj == "cls" then [] else [attr]
     | _ => []) ++ pyExtractCallsList children
  | .plain children => pyExtractCallsList children

def pyExtractCallsList : List PyExpr → List String
  | [] => []
  | e :: es => pyExtractCalls e ++ pyExtractCallsList es

end

/-- The `function` child of a TypeScript `call_expression`: identifier, or a
member expression (the code reads only the `property` field; the receiver
text is carried here to state receiver-sensitivity results). -/
inductive TsCallee where
  | ident (name : String)
  | member (object : String) (property : Option String)
  | other
deriving DecidableEq

inductive TsExpr where
  | call (function : Option TsCallee) (children : List TsExpr)
  | plain (children : List TsExpr)

mutual

/-- `typescript_parser._extract_calls`: record a bare identifier callee; for
a member expression record the property name — with no check on the
receiver; then recurse into all children. -/
def tsExtractCalls : TsExpr → List String
  | .call fn children =>
    (match fn with
     | some (.ident n) => [n]
     | some (.member _ (some p)) => [p]
     | _ => []) ++ tsExtractCallsList children
  | .plain children => tsExtractCallsList children

def tsExtractCallsList : List TsExpr → List String
  | [] => []
  | e :: es => tsExtractCalls e ++ tsExtractCallsList es

end

/-- C7 counterexample — the claim fails for the TypeScript family: a call
through the receiver `this` (the local-receiver equivalent of
`self.other_method()`) still records the property name, so "records nothing
when the receiver is a self/this-like instance reference" is false for
`typescript_parser._extract_calls`. -/
theorem ts_this_call_recorded :
    tsExtractCalls (.call (some (.member "this" (some "otherMethod"))) []) =
        ["otherMethod"] ∧
      tsExtractCalls (.call (some (.member "this" (some "otherMethod"))) []) ≠
        [] := by
  constructor
  · rfl
  · decide

/-- C7 amended — member/attribute-style calls record only the trailing
attribute/property name; the receiver exclusion exists only in the Python
parser (for receivers `self` and `cls`), while the TypeScript-family parser
records the property name for every member call, `this`-receivers included. -/
theorem extract_calls_receiver_behavior :
    (∀ (ch : List PyExpr) (attr : String),
      pyExtractCalls (.call (some (.attribute (some "self") (some attr))) ch) =
        pyExtractCallsList ch) ∧
    (∀ (ch : List PyExpr) (attr : String),
      pyExtractCalls (.call (some (.attribute (some "cls") (some attr))) ch) =
        pyExtractCallsList ch) ∧
    (∀ (ch : List PyExpr) (obj attr : String),
      obj ≠ "self" → obj ≠ "cls" →
      pyExtractCalls (.call (some (.attribute (some obj) (some attr))) ch) =
        attr :: pyExtractCallsList ch) ∧
    (∀ (ch : List TsExpr) (obj prop : String),
      tsExtractCalls (.call (some (.member obj (some prop))) ch) =
        prop :: tsExtractCallsList ch) := by
  refine ⟨fun ch attr => rfl, fun ch attr => rfl, ?_, fun ch obj prop => rfl⟩
  intro ch obj attr h1 h2
  have hb : (obj == "self" || obj == "cls") = false := by
    simp [h1, h2]
  simp only [pyExtractCalls, hb, Bool.false_eq_true, if_neg, not_false_iff]
  rfl

/-- Witness for the amended C7 on concrete receivers. -/
theorem extract_calls_receiver_behavior_witness :
    pyExtractCalls (.call (some (.attribute (some "self") (some "close"))) []) = [] ∧
    pyExtractCalls (.call (some (.attribute (some "db") (some "query"))) []) =
      ["query"] ∧
    tsExtractCalls (.call (some (.member "this" (some "render"))) []) =
      ["render"] :=
  ⟨extract_calls_receiver_behavior.1 [] "close",
    by
      rw [extract_calls_receiver_behavior.2.2.1 [] "db" "query"
        (by decide) (by decide)]
      rfl,
    extract_calls_receiver_behavior.2.2.2 [] "this" "render"⟩

/-! ## C8: import resolution (`graph_builder._resolve_import`) -/

/-- Split a string at `/` characters. -/
def splitSlashAux : List Char → List Char → List String
  | [], acc => [String.mk acc.reverse]
  | c :: rest, acc =>
    if c == '/' then String.mk acc.reverse :: splitSlashAux rest []
    else splitSlashAux rest (c :: acc)

def splitSlash (s : String) : List String := splitSlashAux s.data []

/-- The components `pathlib.PurePath` keeps: empty and `.` parts dropped,
`..` parts kept. -/
def pathParts (p : String) : List String :=
  (splitSlash p).filter (fun s => !(s == "") && !(s == "."))

def joinParts : List String → String
  | [] => "."
  | [x] => x
  | x :: xs => x ++ "/" ++ joinParts xs

/-- `str(Path(c))`: drop `.`/empty components, keep `..`. -/
def normalizePath (p : String) : String := joinParts (pathParts p)

/-- `str(Path(p).parent)`. -/
def parentDir (p : String) : String := joinParts (pathParts p).dropLast

def startsWithDot (s : String) : Bool :=
  match s.data with
  | '.' :: _ => true
  | _ => false

def startsWithDotDot (s : String) : Bool :=
  match s.data with
  | '.' :: '.' :: _ => true
  | _ => false

def strDrop (s : String) (n : Nat) : String := String.mk (s.data.drop n)

/-- `module.lstrip("/")`. -/
def lstripSlash (s : String) : String :=
  String.mk (s.data.dropWhile (fun c => c == '/'))

/-- `module.replace(".", "/")` (single-character pattern). -/
def dotsToSlashes (s : String) : String :=
  String.mk (s.data.map (fun c => if c == '.' then '/' else c))

/-- `_resolve_import(module, source_path, file_paths)`. -/
def resolveImport (module source_path : String)
    (file_paths : List String) : Option String :=
  if startsWithDot module then
    let source_dir := parentDir source_path
    let pr :=
      if startsWithDotDot module then
        (parentDir source_dir, lstripSlash (strDrop module 2))
      else
        (source_dir, lstripSlash (strDrop module 1))
    let candidates := [ pr.1 ++ "/" ++ pr.2 ++ ".ts",
                        pr.1 ++ "/" ++ pr.2 ++ ".tsx",
                        pr.1 ++ "/" ++ pr.2 ++ ".js",
                        pr.1 ++ "/" ++ pr.2 ++ "/index.ts",
                        pr.1 ++ "/" ++ pr.2 ++ "/index.tsx" ]
    candidates.findSome? (fun c =>
      let normalized := normalizePath c
      if file_paths.contains normalized then some normalized else none)
  else
    let path_from_dots := dotsToSlashes module
    let candidates := [ path_from_dots ++ ".py",
                        path_from_dots ++ "/__init__.py",
                        path_from_dots ++ ".ts",
                        path_from_dots ++ ".tsx" ]
    candidates.findSome? (fun c =>
      if file_paths.contains c then some c else none)

/-- Pop one directory level per leading `..`, as the claim describes
relative resolution. -/
def claimPop : Nat → String → String → String × String
  | 0, dir, m => (dir, m)
  | fuel + 1, dir, m =>
    if startsWithDotDot m then
      claimPop fuel (parentDir dir) (lstripSlash (strDrop m 2))
    else if startsWithDot m then (dir, lstripSlash (strDrop m 1))
    else (dir, m)

/-- The relative-import resolution as the claim's sentence describes it
(refinement comparison target, deliberately written from the spec's words,
not from the source): resolve against the importing file's directory, each
leading `..` popping one level, trying the module name with each supported
source extension (`.py`, `.ts`, `.tsx`, `.js`, `.jsx`) and, failing that, as
a directory `index` file with each extension. -/
def claimRelativeResolve (module source_path : String)
    (file_paths : List String) : Option String :=
  if startsWithDot module then
    let pr := claimPop module.data.length (parentDir source_path) module
    let exts := [".py", ".ts", ".tsx", ".js", ".jsx"]
    let candidates := exts.map (fun e => pr.1 ++ "/" ++ pr.2 ++ e) ++
      exts.map (fun e => pr.1 ++ "/" ++ pr.2 ++ "/index" ++ e)
    candidates.findSome? (fun c =>
      let normalized := normalizePath c
      if file_paths.contains normalized then some normalized else none)
  else
    none

/-- C8 counterexample — the code's relative resolver differs from the claim:
(1) it never tries the supported `.py`/`.jsx` extensions (a Python relative
specifier `./helper` with `pkg/helper.py` present resolves to nothing), and
(2) only the first leading `..` pops a directory level (the second `..` of
`../../shared` survives un-normalized in every candidate, so nothing
matches although `shared.ts` exists). -/
theorem resolve_import_counterexample :
    (resolveImport "./helper" "pkg/main.py" ["pkg/helper.py", "pkg/main.py"] =
        none ∧
      claimRelativeResolve "./helper" "pkg/main.py"
        ["pkg/helper.py", "pkg/main.py"] = some "pkg/helper.py") ∧
    (resolveImport "../../shared" "a/b/m.ts" ["shared.ts", "a/b/m.ts"] =
        none ∧
      claimRelativeResolve "../../shared" "a/b/m.ts" ["shared.ts", "a/b/m.ts"] =
        some "shared.ts") := by
  decide

/-! Parse-result records shared by the import- and call-edge builders. -/

structure ImportRec where
  module : String
  names : List String
deriving DecidableEq

/-- A declaration node as the edge builders see it (`calls` is present only
on function nodes). -/
structure DeclNode where
  id : String
  type : String
  name : String
  calls : Option (List String) := none
deriving DecidableEq

structure ParseResult where
  nodes : List DeclNode
  imports : List ImportRec
deriving DecidableEq

/-- `_build_import_edges`: one edge per import whose module resolves to a
discovered file, with `weight = len(names) or 1`. -/
def buildImportEdges (parse_results : List (String × ParseResult))
    (file_paths : List String) : List Edge :=
  parse_results.flatMap (fun pr =>
    pr.2.imports.filterMap (fun imp =>
      match resolveImport imp.module pr.1 file_paths with
      | some target => some { from_ := "file:" ++ pr.1
                              to_ := "file:" ++ target
                              type := "imports"
                              weight := max 1 (Int.ofNat imp.names.length) }
      | none => none))

theorem findSome_filter_mem {α : Type} {fps : List String} {l : List α}
    {g : α → String} {t : String}
    (h : l.findSome? (fun c =>
      if fps.contains (g c) then some (g c) else none) = some t) :
    t ∈ fps := by
  obtain ⟨c, _, hc⟩ := List.exists_of_findSome?_eq_some h
  cases hcont : fps.contains (g c) with
  | true =>
    rw [if_pos hcont] at hc
    obtain rfl := Option.some.inj hc
    exact contains_iff.mp hcont
  | false =>
    rw [if_neg (fun hh => by rw [hh] at hcont; cases hcont)] at hc
    cases hc

/-- A successful resolution always names a discovered file. -/
theorem resolveImport_mem {module source_path t : String}
    {file_paths : List String}
    (h : resolveImport module source_path file_paths = some t) :
    t ∈ file_paths := by
  unfold resolveImport at h
  by_cases hd : startsWithDot module = true
  · rw [if_pos hd] at h
    exact findSome_filter_mem (g := normalizePath) h
  · rw [if_neg hd] at h
    exact findSome_filter_mem (g := fun c => c) h

/-- C8 amended — relative import resolution: for a specifier starting with
`.`, resolution is anchored at the importing file's directory and a leading
`..` pops exactly one directory level (deeper `..` prefixes stay in the
candidate string); the candidates tried, in order, are the module name with
`.ts`, `.tsx`, `.js` and then the directory index files `index.ts`,
`index.tsx` — not every supported source extension; a successful resolution
always names a discovered file, and every emitted imports edge points at a
discovered file (no dangling edges). -/
theorem resolve_import_characterization :
    (∀ (module source_path : String) (file_paths : List String),
      startsWithDot module = true →
      resolveImport module source_path file_paths =
        (let source_dir := parentDir source_path
         let pr :=
           if startsWithDotDot module then
             (parentDir source_dir, lstripSlash (strDrop module 2))
           else
             (source_dir, lstripSlash (strDrop module 1))
         [ pr.1 ++ "/" ++ pr.2 ++ ".ts",
           pr.1 ++ "/" ++ pr.2 ++ ".tsx",
           pr.1 ++ "/" ++ pr.2 ++ ".js",
           pr.1 ++ "/" ++ pr.2 ++ "/index.ts",
           pr.1 ++ "/" ++ pr.2 ++ "/index.tsx" ].findSome? (fun c =>
             let normalized := normalizePath c
             if file_paths.contains normalized then some normalized else none))) ∧
    (∀ (module source_path t : String) (file_paths : List String),
      resolveImport module source_path file_paths = some t → t ∈ file_paths) ∧
    (∀ (parse_results : List (String × ParseResult))
       (file_paths : List String) (e : Edge),
      e ∈ buildImportEdges parse_results file_paths →
      e.type = "imports" ∧ ∃ t ∈ file_paths, e.to_ = "file:" ++ t) := by
  refine ⟨?_, ?_, ?_⟩
  · intro module source_path file_paths h
    unfold resolveImport
    rw [if_pos h]
  · intro module source_path t file_paths h
    exact resolveImport_mem h
  · intro parse_results file_paths e he
    unfold buildImportEdges at he
    rw [List.mem_flatMap] at he
    obtain ⟨pr, _, he⟩ := he
    rw [List.mem_filterMap] at he
    obtain ⟨imp, _, himp⟩ := he
    cases hres : resolveImport imp.module pr.1 file_paths with
    | none => rw [hres] at himp; cases himp
    | some target =>
      rw [hres] at himp
      obtain rfl := Option.some.inj himp
      exact ⟨rfl, target, resolveImport_mem hres, rfl⟩

/-- Witness for the amended C8: a `..` specifier resolving through the
code's actual candidate list, and a dotted import edge landing on a
discovered file. -/
theorem resolve_import_characterization_witness :
    resolveImport "../utils" "src/app/main.ts" ["src/utils.ts", "src/app/main.ts"] =
      some "src/utils.ts" ∧
    "src/utils.ts" ∈ ["src/utils.ts", "src/app/main.ts"] ∧
    (∀ e ∈ buildImportEdges
        [("src/app/main.ts",
          { nodes := []
            imports := [{ module := "../utils", names := ["helper"] }] })]
        ["src/utils.ts", "src/app/main.ts"],
      e.type = "imports" ∧
        ∃ t ∈ ["src/utils.ts", "src/app/main.ts"], e.to_ = "file:" ++ t) := by
  refine ⟨?_, ?_, ?_⟩
  · rw [resolve_import_characterization.1 "../utils" "src/app/main.ts"
      ["src/utils.ts", "src/app/main.ts"] (by decide)]
    decide
  · have := resolve_import_characterization.2.1 "../utils" "src/app/main.ts"
      "src/utils.ts" ["src/utils.ts", "src/app/main.ts"] (by decide)
    exact this
  · intro e he
    exact resolve_import_characterization.2.2
      [("src/app/main.ts",
        { nodes := []
          imports := [{ module := "../utils", names := ["helper"] }] })]
      ["src/utils.ts", "src/app/main.ts"] e he

/-! ## C6: call resolution (`graph_builder._build_call_edges`) -/

/-- Per-file symbol table: function name → node id (later declarations
overwrite earlier ones, as in the Python dict). -/
def fileSymbols (result : ParseResult) : List (String × String) :=
  result.nodes.foldl (fun m n =>
    if n.type == "function" then (n.name, n.id) :: m else m) []

/-- Per-file import map: locally bound imported name → resolved target file
(later bindings overwrite earlier ones). -/
def importMapOf (file_path : String) (result : ParseResult)
    (file_paths : List String) : List (String × String) :=
  result.imports.foldl (fun m imp =>
    match resolveImport imp.module file_path file_paths with
    | some target => imp.names.foldl (fun m' nm => (nm, target) :: m') m
    | none => m) []

/-- `file_symbols.get(fp, {})`. -/
def callSymsOf (prs : List (String × ParseResult)) (fp : String) :
    List (String × String) :=
  (lookupA (prs.map (fun p => (p.1, fileSymbols p.2))) fp).getD []

/-- `file_import_map.get(fp, {})`. -/
def callImportMapOf (prs : List (String × ParseResult))
    (file_paths : List String) (fp : String) : List (String × String) :=
  (lookupA (prs.map (fun p => (p.1, importMapOf p.1 p.2 file_paths))) fp).getD []

/-- The priority resolution of one recorded call name: a same-file function
of that name wins unless it is the caller itself; otherwise an import-bound
name whose target file declares a function of that name; otherwise nothing. -/
def resolveCall (local_symbols import_map : List (String × String))
    (symsOf : String → List (String × String))
    (caller_id call_name : String) : Option String :=
  let fromImport :=
    match lookupA import_map call_name with
    | some target_file => lookupA (symsOf target_file) call_name
    | none => none
  match lookupA local_symbols call_name with
  | some t => if t == caller_id then fromImport else some t
  | none => fromImport

/-- The loop nest of `_build_call_edges`, linearized: one item per recorded
call name of each function node of each parsed file, in source order. -/
def callItems (prs : List (String × ParseResult)) :
    List (String × String × String) :=
  prs.flatMap (fun p =>
    p.2.nodes.flatMap (fun n =>
      match n.calls with
      | some cl =>
        if n.type == "function" then cl.map (fun c => (p.1, n.id, c)) else []
      | none => []))

def mkCallsEdge (caller target : String) : Edge :=
  { from_ := caller, to_ := target, type := "calls", weight := 1 }

/-- One emission step, threading the `seen_call_edges` dedup set. -/
def callStep (prs : List (String × ParseResult)) (file_paths : List String)
    (st : List (String × String) × List Edge)
    (it : String × String × String) :
    List (String × String) × List Edge :=
  match resolveCall (callSymsOf prs it.1) (callImportMapOf prs file_paths it.1)
    (callSymsOf prs) it.2.1 it.2.2 with
  | some t =>
    if (it.2.1, t) ∈ st.1 then st
    else ((it.2.1, t) :: st.1, st.2 ++ [mkCallsEdge it.2.1 t])
  | none => st

/-- `_build_call_edges` (the `calls` edges it appends). -/
def buildCallEdges (prs : List (String × ParseResult))
    (file_paths : List String) : List Edge :=
  ((callItems prs).foldl (callStep prs file_paths) ([], [])).2

theorem mem_callItems {prs : List (String × ParseResult)}
    {fp cid c : String} :
    (fp, cid, c) ∈ callItems prs ↔
      ∃ r, (fp, r) ∈ prs ∧ ∃ n ∈ r.nodes, n.id = cid ∧ n.type = "function" ∧
        ∃ cl, n.calls = some cl ∧ c ∈ cl := by
  unfold callItems
  rw [List.mem_flatMap]
  constructor
  · rintro ⟨p, hp, hmem⟩
    rw [List.mem_flatMap] at hmem
    obtain ⟨n, hn, hitem⟩ := hmem
    cases hcalls : n.calls with
    | none => simp only [hcalls] at hitem; cases hitem
    | some cl =>
      simp only [hcalls] at hitem
      cases htype : (n.type == "function") with
      | false =>
        rw [if_neg (fun hh => by rw [hh] at htype; cases htype)] at hitem
        cases hitem
      | true =>
        rw [if_pos htype] at hitem
        rw [List.mem_map] at hitem
        obtain ⟨c', hc', heq⟩ := hitem
        have h1 : p.1 = fp := congrArg Prod.fst heq
        have h2 : n.id = cid := congrArg (fun x => x.2.1) heq
        have h3 : c' = c := congrArg (fun x => x.2.2) heq
        subst h1 h2 h3
        exact ⟨p.2, by simpa using hp, n, hn, rfl, by simpa using htype,
          cl, hcalls, hc'⟩
  · rintro ⟨r, hr, n, hn, rfl, htype, cl, hcalls, hc⟩
    refine ⟨(fp, r), hr, ?_⟩
    rw [List.mem_flatMap]
    refine ⟨n, hn, ?_⟩
    simp only [hcalls]
    rw [if_pos (by simpa using htype), List.mem_map]
    exact ⟨c, hc, rfl⟩

theorem foldl_invariant_mem {σ α : Type} {P : σ → Prop} (f : σ → α → σ)
    (l : List α) (init : σ) (h0 : P init)
    (hstep : ∀ s a, a ∈ l → P s → P (f s a)) : P (l.foldl f init) := by
  induction l generalizing init with
  | nil => simpa using h0
  | cons a l ih =>
    rw [List.foldl_cons]
    exact ih _ (hstep init a (List.mem_cons_self _ _) h0)
      (fun s b hb hP => hstep s b (List.mem_cons_of_mem _ hb) hP)

theorem callStep_edges_persist (prs : List (String × ParseResult))
    (fps : List String) (items : List (String × String × String))
    (st : List (String × String) × List Edge) {e : Edge} (he : e ∈ st.2) :
    e ∈ (items.foldl (callStep prs fps) st).2 := by
  refine foldl_invariant (P := fun (s : List (String × String) × List Edge) =>
    e ∈ s.2) _ _ _ he ?_
  intro s it hP
  unfold callStep
  cases resolveCall (callSymsOf prs it.1) (callImportMapOf prs fps it.1)
      (callSymsOf prs) it.2.1 it.2.2 with
  | none => exact hP
  | some t =>
    dsimp only
    by_cases hc : (it.2.1, t) ∈ s.1
    · rw [if_pos hc]
      exact hP
    · rw [if_neg hc]
      exact List.mem_append.mpr (Or.inl hP)

theorem callStep_seen_invariant (prs : List (String × ParseResult))
    (fps : List String) (st : List (String × String) × List Edge)
    (it : String × String × String)
    (hP : ∀ pr ∈ st.1, mkCallsEdge pr.1 pr.2 ∈ st.2) :
    ∀ pr ∈ (callStep prs fps st it).1,
      mkCallsEdge pr.1 pr.2 ∈ (callStep prs fps st it).2 := by
  unfold callStep
  cases resolveCall (callSymsOf prs it.1) (callImportMapOf prs fps it.1)
      (callSymsOf prs) it.2.1 it.2.2 with
  | none => exact hP
  | some t =>
    dsimp only
    by_cases hc : (it.2.1, t) ∈ st.1
    · rw [if_pos hc]
      exact hP
    · rw [if_neg hc]
      intro pr hpr
      rcases List.mem_cons.mp hpr with rfl | hpr
      · exact List.mem_append.mpr (Or.inr (List.mem_singleton.mpr rfl))
      · exact List.mem_append.mpr (Or.inl (hP pr hpr))

theorem buildCallEdges_complete_aux (prs : List (String × ParseResult))
    (fps : List String) (items : List (String × String × String))
    {it : String × String × String} {t : String} :
    ∀ (st : List (String × String) × List Edge),
      (∀ pr ∈ st.1, mkCallsEdge pr.1 pr.2 ∈ st.2) →
      it ∈ items →
      resolveCall (callSymsOf prs it.1) (callImportMapOf prs fps it.1)
        (callSymsOf prs) it.2.1 it.2.2 = some t →
      mkCallsEdge it.2.1 t ∈ (items.foldl (callStep prs fps) st).2 := by
  induction items with
  | nil => intro st _ hmem _; cases hmem
  | cons it' rest ih =>
    intro st hP hmem hres
    rw [List.foldl_cons]
    rcases List.mem_cons.mp hmem with rfl | hmem
    · have hstep : mkCallsEdge it.2.1 t ∈ (callStep prs fps st it).2 := by
        unfold callStep
        rw [hres]
        dsimp only
        by_cases hc : (it.2.1, t) ∈ st.1
        · rw [if_pos hc]
          exact hP (it.2.1, t) hc
        · rw [if_neg hc]
          exact List.mem_append.mpr (Or.inr (List.mem_singleton.mpr rfl))
      exact callStep_edges_persist prs fps rest _ hstep
    · exact ih _ (callStep_seen_invariant prs fps st it' hP) hmem hres

/-- Characterization of an emitted calls edge. -/
def CallEdgeWitness (prs : List (String × ParseResult)) (fps : List String)
    (e : Edge) : Prop :=
  e.type = "calls" ∧ e.weight = 1 ∧
    ∃ fp r n c, (fp, r) ∈ prs ∧ n ∈ r.nodes ∧ n.type = "function" ∧
      (∃ cl, n.calls = some cl ∧ c ∈ cl) ∧ e.from_ = n.id ∧
      resolveCall (callSymsOf prs fp) (callImportMapOf prs fps fp)
        (callSymsOf prs) n.id c = some e.to_

theorem buildCallEdges_sound_aux (prs : List (String × ParseResult))
    (fps : List String) :
    ∀ e ∈ buildCallEdges prs fps, CallEdgeWitness prs fps e := by
  unfold buildCallEdges
  refine foldl_invariant_mem
    (P := fun (s : List (String × String) × List Edge) =>
      ∀ e ∈ s.2, CallEdgeWitness prs fps e) _ _ _ (by intro e he; cases he) ?_
  intro st it hit hP
  unfold callStep
  cases hres : resolveCall (callSymsOf prs it.1) (callImportMapOf prs fps it.1)
      (callSymsOf prs) it.2.1 it.2.2 with
  | none => exact hP
  | some t =>
    dsimp only
    by_cases hc : (it.2.1, t) ∈ st.1
    · rw [if_pos hc]
      exact hP
    · rw [if_neg hc]
      intro e he
      rcases List.mem_append.mp he with he | he
      · exact hP e he
      · rw [List.mem_singleton] at he
        subst he
        obtain ⟨fp, cid, c⟩ := it
        obtain ⟨r, hr, n, hn, rfl, htype, cl, hcalls, hcl⟩ :=
          mem_callItems.mp hit
        exact ⟨rfl, rfl, fp, r, n, c, hr, hn, htype, ⟨cl, hcalls, hcl⟩, rfl,
          hres⟩

/-- Example input for the cross-file scenario: file `a.py` defines `login`
calling `authenticate_user`, imported from `b.py`, which defines it. -/
def exCallPrs : List (String × ParseResult) :=
  [ ("a.py", { nodes := [ { id := "func:a.py:login", type := "function",
                            name := "login",
                            calls := some ["authenticate_user"] } ]
               imports := [ { module := "b", names := ["authenticate_user"] } ] }),
    ("b.py", { nodes := [ { id := "func:b.py:authenticate_user",
                            type := "function", name := "authenticate_user",
                            calls := some [] } ]
               imports := [] }) ]

def exCallPaths : List String := ["a.py", "b.py"]

/-- C6 — Call resolution priority: a recorded call name resolves to a
same-file function of that name unless that function is the caller itself;
otherwise to the function of that name declared by the file an import binds
the name to; otherwise to nothing.  A resolved call yields its edge in the
builder output, and every emitted calls edge comes from such a resolution.
In particular, `login` in file `a` calling `authenticate_user` imported from
file `b` yields the edge `func:a.py:login → func:b.py:authenticate_user`. -/
theorem build_call_edges_resolution :
    (∀ (ls im : List (String × String)) (symsOf : String → List (String × String))
       (caller c t : String), lookupA ls c = some t → t ≠ caller →
      resolveCall ls im symsOf caller c = some t) ∧
    (∀ (ls im : List (String × String)) (symsOf : String → List (String × String))
       (caller c tf t : String),
      (lookupA ls c = none ∨ lookupA ls c = some caller) →
      lookupA im c = some tf → lookupA (symsOf tf) c = some t →
      resolveCall ls im symsOf caller c = some t) ∧
    (∀ (ls im : List (String × String)) (symsOf : String → List (String × String))
       (caller c : String),
      (lookupA ls c = none ∨ lookupA ls c = some caller) →
      (∀ tf, lookupA im c = some tf → lookupA (symsOf tf) c = none) →
      resolveCall ls im symsOf caller c = none) ∧
    (∀ (prs : List (String × ParseResult)) (fps : List String)
       (fp c t : String) (r : ParseResult) (n : DeclNode),
      (fp, r) ∈ prs → n ∈ r.nodes → n.type = "function" →
      (∃ cl, n.calls = some cl ∧ c ∈ cl) →
      resolveCall (callSymsOf prs fp) (callImportMapOf prs fps fp)
        (callSymsOf prs) n.id c = some t →
      mkCallsEdge n.id t ∈ buildCallEdges prs fps) ∧
    (∀ (prs : List (String × ParseResult)) (fps : List String) (e : Edge),
      e ∈ buildCallEdges prs fps → CallEdgeWitness prs fps e) ∧
    mkCallsEdge "func:a.py:login" "func:b.py:authenticate_user" ∈
      buildCallEdges exCallPrs exCallPaths := by
  refine ⟨?_, ?_, ?_, ?_, ?_, ?_⟩
  · intro ls im symsOf caller c t hls hne
    unfold resolveCall
    rw [hls]
    simp only
    rw [if_neg (by simpa using hne)]
  · intro ls im symsOf caller c tf t hls him hsym
    unfold resolveCall
    rcases hls with hls | hls
    · rw [hls, him]
      dsimp only
      exact hsym
    · rw [hls, him]
      dsimp only
      rw [if_pos (by simp)]
      exact hsym
  · intro ls im symsOf caller c hls hnone
    unfold resolveCall
    have himp : (match lookupA im c with
        | some target_file => lookupA (symsOf target_file) c
        | none => none) = none := by
      cases him : lookupA im c with
      | none => rfl
      | some tf => exact hnone tf him
    rcases hls with hls | hls
    · rw [himp, hls]
    · rw [himp, hls]
      dsimp only
      rw [if_pos (by simp)]
  · intro prs fps fp c t r n hr hn htype hcalls hres
    have hit : (fp, n.id, c) ∈ callItems prs :=
      mem_callItems.mpr ⟨r, hr, n, hn, rfl, htype, hcalls⟩
    exact buildCallEdges_complete_aux prs fps (callItems prs) ([], [])
      (by intro pr hpr; cases hpr) hit hres
  · exact buildCallEdges_sound_aux
  · decide

/-- Witness for C6's universally quantified parts at the scenario input. -/
theorem build_call_edges_resolution_witness :
    resolveCall (callSymsOf exCallPrs "a.py")
        (callImportMapOf exCallPrs exCallPaths "a.py") (callSymsOf exCallPrs)
        "func:a.py:login" "authenticate_user" =
      some "func:b.py:authenticate_user" ∧
    mkCallsEdge "func:a.py:login" "func:b.py:authenticate_user" ∈
      buildCallEdges exCallPrs exCallPaths ∧
    CallEdgeWitness exCallPrs exCallPaths
      (mkCallsEdge "func:a.py:login" "func:b.py:authenticate_user") := by
  refine ⟨?_, ?_, ?_⟩
  · exact build_call_edges_resolution.2.1 _ _ _ "func:a.py:login"
      "authenticate_user" "b.py" "func:b.py:authenticate_user"
      (Or.inl (by decide)) (by decide) (by decide)
  · exact build_call_edges_resolution.2.2.2.1 exCallPrs exCallPaths "a.py"
      "authenticate_user" "func:b.py:authenticate_user"
      { nodes := [ { id := "func:a.py:login", type := "function",
                     name := "login", calls := some ["authenticate_user"] } ]
        imports := [ { module := "b", names := ["authenticate_user"] } ] }
      { id := "func:a.py:login", type := "function", name := "login",
        calls := some ["authenticate_user"] }
      (by decide) (by decide) (by decide)
      ⟨["authenticate_user"], rfl, by decide⟩ (by decide)
  · exact build_call_edges_resolution.2.2.2.2.1 exCallPrs exCallPaths _
      (build_call_edges_resolution.2.2.2.2.2)

/-! ## Plan engine (`plan_engine.py`)

`apply_plan` deep-copies the graph and mutates only the copy; `_apply_move`
writes through `node_index` into node dicts shared with the copy's node
list.  To make those aliasing effects (and the deep copy that shields the
original from them) visible, node dicts live in an explicit store addressed
by index: the original graph's nodes sit at addresses `0..n-1`, the deep
copy's fresh nodes at `n..2n-1`, and `node_index` maps ids to addresses.
Operation dicts are raw records with optional fields — `op[...]` access on a
missing key raises (`Except.error` carrying the key name). -/

structure RawOp where
  op : Option String := none
  name : Option String := none
  layer : Option String := none
  depends_on : Option (List String) := none
  id : Option String := none
  to_layer : Option String := none
deriving DecidableEq

structure RawPlan where
  name : Option String := none
  operations : List RawOp := []
deriving DecidableEq

/-- `LAYER_TO_LEVEL.get(layer, 2)`. -/
def LAYER_TO_LEVEL (s : String) : Int :=
  if s == "C1" then 3 else if s == "C2" then 2 else if s == "C3" then 1 else 2

abbrev Addr := Nat

structure PlanState where
  store : List Node
  copyAddrs : List Addr
  copyEdges : List Edge
  index : List (String × Addr)
deriving DecidableEq

def getNode (store : List Node) (a : Addr) : Node := (store[a]?).getD panicNode

/-- The state right after `modified = copy.deepcopy(graph)` and
`node_index = {n["id"]: n for n in modified["nodes"]}`. -/
def initState (g : Graph) : PlanState :=
  let n := g.nodes.length
  let copyAddrs := (List.range n).map (· + n)
  { store := g.nodes ++ g.nodes
    copyAddrs := copyAddrs
    copyEdges := g.edges
    index := copyAddrs.foldl
      (fun ix a => ((getNode (g.nodes ++ g.nodes) a).id, a) :: ix) [] }

/-- `"plan:" + name.lower().replace(" ", "_")`. -/
def planSlug (name : String) : String :=
  "plan:" ++ String.mk (name.data.map (fun c => if c == ' ' then '_' else c.toLower))

/-- `_apply_add(graph, node_index, op)`. -/
def applyAdd (s : PlanState) (op : RawOp) : Except String PlanState :=
  match op.name with
  | none => .error "name"
  | some name =>
    let level := LAYER_TO_LEVEL (op.layer.getD "C2")
    let node_id := planSlug name
    let node : Node :=
      { id := node_id, type := "file", name := name
        file_path := some ("(planned)/" ++ name), language := none
        lines_of_code := some 0, abstraction_level := some level
        export_count := some 0, parent := none }
    let addr := s.store.length
    let ix' := (node_id, addr) :: s.index
    .ok { store := s.store ++ [node]
          copyAddrs := s.copyAddrs ++ [addr]
          copyEdges := s.copyEdges ++ (op.depends_on.getD []).filterMap
            (fun dep =>
              match lookupA ix' dep with
              | some _ => some { from_ := node_id, to_ := dep,
                                 type := "imports", weight := 1 }
              | none => none)
          index := ix' }

/-- `_apply_remove(graph, node_index, op)`. -/
def applyRemove (s : PlanState) (op : RawOp) : Except String PlanState :=
  match op.id with
  | none => .error "id"
  | some target =>
    .ok { store := s.store
          copyAddrs := s.copyAddrs.filter
            (fun a => !((getNode s.store a).id == target))
          copyEdges := s.copyEdges.filter
            (fun e => !(e.from_ == target) && !(e.to_ == target))
          index := s.index.filter (fun p => !(p.1 == target)) }

/-- `_apply_move(node_index, op)` — mutates the node object in place. -/
def applyMove (s : PlanState) (op : RawOp) : Except String PlanState :=
  match op.id with
  | none => .error "id"
  | some target =>
    match lookupA s.index target with
    | none => .ok s
    | some a =>
      let lvl := LAYER_TO_LEVEL (op.to_layer.getD "C2")
      let updated : Node := { getNode s.store a with abstraction_level := some lvl }
      .ok { s with store := s.store.set a updated }

/-- The dispatch on `op["op"]`: unknown actions fall through silently. -/
def applyOpRaw (s : PlanState) (op : RawOp) : Except String PlanState :=
  match op.op with
  | none => .error "op"
  | some action =>
    if action == "add" then applyAdd s op
    else if action == "remove" then applyRemove s op
    else if action == "move" then applyMove s op
    else .ok s

/-- Run the operation list; on an exception, return the state reached when it
was raised together with the error. -/
def runOps : PlanState → List RawOp → PlanState × Option String
  | s, [] => (s, none)
  | s, op :: rest =>
    match applyOpRaw s op with
    | .error e => (s, some e)
    | .ok s' => runOps s' rest

/-- The original graph dict as read back after the run: its node list still
refers to addresses `0..n-1`; its edge list was never rebound. -/
def readOriginal (g : Graph) (s : PlanState) : Graph :=
  { nodes := (List.range g.nodes.length).map (fun a => getNode s.store a)
    edges := g.edges }

/-- The modified copy as read back from the final state. -/
def readCopy (s : PlanState) : Graph :=
  { nodes := s.copyAddrs.map (getNode s.store), edges := s.copyEdges }

/-- `apply_plan(graph, plan)`. -/
def apply_plan (graph : Graph) (plan : RawPlan) : Except String Diff :=
  let res := runOps (initState graph) plan.operations
  match res.2 with
  | some e => .error e
  | none => .ok (compute_diff (readOriginal graph res.1) (readCopy res.1)
      [("source", "plan"), ("plan_name", plan.name.getD "unnamed")])

/-! ## C2: plan purity -/

/-- Heap invariant: the store never shrinks below the original region, the
original region `0..n-1` is never written, and every address the node index
can hand out (the only write path, via `_apply_move`) lies in the copy
region. -/
def PlanInv (g : Graph) (s : PlanState) : Prop :=
  g.nodes.length ≤ s.store.length ∧
  (∀ i, i < g.nodes.length → s.store[i]? = g.nodes[i]?) ∧
  (∀ p ∈ s.index, g.nodes.length ≤ p.2)

theorem planInv_init (g : Graph) : PlanInv g (initState g) := by
  refine ⟨?_, ?_, ?_⟩
  · simp [initState]
  · intro i hi
    simp only [initState]
    exact List.getElem?_append_left hi
  · simp only [initState]
    refine foldl_invariant_mem
      (P := fun (ix : List (String × Addr)) => ∀ p ∈ ix, g.nodes.length ≤ p.2)
      _ _ _ (by intro p hp; cases hp) ?_
    intro ix a ha hP p hp
    rcases List.mem_cons.mp hp with rfl | hp
    · rw [List.mem_map] at ha
      obtain ⟨x, _, rfl⟩ := ha
      exact Nat.le_add_left _ _
    · exact hP p hp

theorem lookupA_mem {α : Type} {m : List (String × α)} {k : String} {v : α}
    (h : lookupA m k = some v) : ∃ p ∈ m, p.2 = v := by
  unfold lookupA at h
  cases hf : m.find? (fun p => p.1 == k) with
  | none => rw [hf] at h; cases h
  | some pr =>
    rw [hf] at h
    simp only [Option.map_some', Option.some.injEq] at h
    exact ⟨pr, List.mem_of_find?_eq_some hf, h⟩

theorem planInv_step {g : Graph} {s s' : PlanState} {op : RawOp}
    (hinv : PlanInv g s) (h : applyOpRaw s op = .ok s') : PlanInv g s' := by
  obtain ⟨hlen, hpre, hidx⟩ := hinv
  unfold applyOpRaw at h
  cases hop : op.op with
  | none => rw [hop] at h; cases h
  | some action =>
    rw [hop] at h
    dsimp only at h
    by_cases ha : (action == "add") = true
    · rw [if_pos ha] at h
      unfold applyAdd at h
      cases hname : op.name with
      | none => rw [hname] at h; cases h
      | some nm =>
        rw [hname] at h
        dsimp only at h
        obtain rfl := Except.ok.inj h
        refine ⟨?_, ?_, ?_⟩
        · simpa using Nat.le_succ_of_le hlen
        · intro i hi
          dsimp only
          rw [List.getElem?_append_left (Nat.lt_of_lt_of_le hi hlen)]
          exact hpre i hi
        · intro p hp
          dsimp only at hp
          rcases List.mem_cons.mp hp with rfl | hp
          · exact hlen
          · exact hidx p hp
    · rw [if_neg ha] at h
      by_cases hr : (action == "remove") = true
      · rw [if_pos hr] at h
        unfold applyRemove at h
        cases hid : op.id with
        | none => rw [hid] at h; cases h
        | some target =>
          rw [hid] at h
          obtain rfl := Except.ok.inj h
          refine ⟨hlen, hpre, ?_⟩
          intro p hp
          exact hidx p (List.mem_of_mem_filter hp)
      · rw [if_neg hr] at h
        by_cases hm : (action == "move") = true
        · rw [if_pos hm] at h
          unfold applyMove at h
          cases hid : op.id with
          | none => rw [hid] at h; cases h
          | some target =>
            rw [hid] at h
            dsimp only at h
            cases hla : lookupA s.index target with
            | none =>
              rw [hla] at h
              obtain rfl := Except.ok.inj h
              exact ⟨hlen, hpre, hidx⟩
            | some a =>
              rw [hla] at h
              dsimp only at h
              obtain rfl := Except.ok.inj h
              obtain ⟨p, hp, rfl⟩ := lookupA_mem hla
              have hna : g.nodes.length ≤ p.2 := hidx p hp
              refine ⟨?_, ?_, hidx⟩
              · simpa using hlen
              · intro i hi
                dsimp only
                rw [List.getElem?_set_ne (by omega)]
                exact hpre i hi
        · rw [if_neg hm] at h
          obtain rfl := Except.ok.inj h
          exact ⟨hlen, hpre, hidx⟩

theorem runOps_inv {g : Graph} {s : PlanState} (ops : List RawOp)
    (hinv : PlanInv g s) : PlanInv g (runOps s ops).1 := by
  induction ops generalizing s with
  | nil => exact hinv
  | cons op rest ih =>
    unfold runOps
    cases h : applyOpRaw s op with
    | error e => exact hinv
    | ok s' => exact ih (planInv_step hinv h)

/-- C2 — Plan purity: for every graph `G` and every plan `P`, running the
plan operations (the state machine `apply_plan` executes after
`copy.deepcopy`) leaves the original graph dict exactly as it was — reading
`G`'s node and edge lists back from the final heap returns `G` itself, with
the same length and the same element contents; all writes land in the deep
copy's region of the heap.  This holds for the state reached even when an
operation raises. -/
theorem apply_plan_preserves_original (g : Graph) (plan : RawPlan) :
    readOriginal g (runOps (initState g) plan.operations).1 = g := by
  obtain ⟨hlen, hpre, _⟩ := runOps_inv plan.operations (planInv_init g)
  unfold readOriginal
  have hnodes : (List.range g.nodes.length).map
      (fun a => getNode (runOps (initState g) plan.operations).1.store a) =
      g.nodes := by
    refine List.ext_getElem? ?_
    intro i
    rw [List.getElem?_map]
    by_cases hi : i < g.nodes.length
    · rw [List.getElem?_range hi]
      have h1 := hpre i hi
      have h2 : g.nodes[i]? = some g.nodes[i] := List.getElem?_eq_getElem hi
      simp only [Option.map_some']
      rw [h2]
      unfold getNode
      rw [h1, h2]
      rfl
    · have h1 : (List.range g.nodes.length)[i]? = none := by
        rw [List.getElem?_eq_none_iff]
        simpa using Nat.le_of_not_lt hi
      have h2 : g.nodes[i]? = none := by
        rw [List.getElem?_eq_none_iff]
        exact Nat.le_of_not_lt hi
      rw [h1, h2]
      rfl
  rw [hnodes]

instance : DecidableEq (Except String Diff) := fun a b =>
  match a, b with
  | .error x, .error y =>
    if h : x = y then isTrue (by rw [h]) else isFalse (by
      intro hc
      cases hc
      exact h rfl)
  | .ok x, .ok y =>
    if h : x = y then isTrue (by rw [h]) else isFalse (by
      intro hc
      cases hc
      exact h rfl)
  | .error _, .ok _ => isFalse (fun hc => Except.noConfusion hc)
  | .ok _, .error _ => isFalse (fun hc => Except.noConfusion hc)

/-! ## C9: plan operations on unknown node ids -/

/-- C9 counterexample — `remove` of an id that names no node is *not* always
a no-op: the edge filter runs regardless, so on a graph carrying an edge
that mentions the missing id, the edge is deleted from the copy and the
resulting diff reports a removed edge instead of no change. -/
theorem plan_remove_missing_id_not_noop :
    apply_plan
        { nodes := []
          edges := [{ from_ := "x", to_ := "y", type := "imports", weight := 1 }] }
        { name := some "p"
          operations := [{ op := some "remove", id := some "x" }] } =
      .ok { meta := [("source", "plan"), ("plan_name", "p")]
            summary := ⟨0, 0, 0, 0, 0, 1⟩
            added_nodes := []
            removed_nodes := []
            moved_nodes := []
            modified_nodes := []
            added_edges := []
            removed_edges := [{ from_ := "x", to_ := "y", type := "imports" }] } ∧
      [({ from_ := "x", to_ := "y", type := "imports" } : DiffEdge)] ≠ [] := by
  constructor
  · decide
  · decide

/-- C9 amended — plan operations referencing unknown node ids never raise:
an `add`'s `depends_on` entries absent from the node index are silently
skipped (every edge the operation appends points at an indexed id); a `move`
of an unindexed id is a complete no-op; a `remove` of an id that names no
node of the copy is a no-op *provided* no edge mentions the id (the edge
filter always runs) and the index does not know it. -/
theorem plan_unknown_ids_amended :
    (∀ (s : PlanState) (op : RawOp) (nm : String),
      op.op = some "add" → op.name = some nm →
      ∃ s', applyOpRaw s op = .ok s' ∧
        ∀ e ∈ s'.copyEdges, e ∈ s.copyEdges ∨ lookupA s'.index e.to_ ≠ none) ∧
    (∀ (s : PlanState) (op : RawOp) (t : String),
      op.op = some "move" → op.id = some t → lookupA s.index t = none →
      applyOpRaw s op = .ok s) ∧
    (∀ (s : PlanState) (op : RawOp) (t : String),
      op.op = some "remove" → op.id = some t →
      (∀ a ∈ s.copyAddrs, (getNode s.store a).id ≠ t) →
      (∀ e ∈ s.copyEdges, e.from_ ≠ t ∧ e.to_ ≠ t) →
      (∀ p ∈ s.index, p.1 ≠ t) →
      applyOpRaw s op = .ok s) := by
  refine ⟨?_, ?_, ?_⟩
  · intro s op nm hop hname
    unfold applyOpRaw
    rw [hop]
    dsimp only
    rw [if_pos (by simp)]
    unfold applyAdd
    rw [hname]
    dsimp only
    refine ⟨_, rfl, ?_⟩
    intro e he
    dsimp only at he
    rcases List.mem_append.mp he with he | he
    · exact Or.inl he
    · right
      rw [List.mem_filterMap] at he
      obtain ⟨dep, _, hdep⟩ := he
      cases hla : lookupA ((planSlug nm, s.store.length) :: s.index) dep with
      | none => rw [hla] at hdep; cases hdep
      | some a =>
        rw [hla] at hdep
        obtain rfl := Option.some.inj hdep
        dsimp only
        rw [hla]
        exact fun hc => Option.noConfusion hc
  · intro s op t hop hid hla
    unfold applyOpRaw
    rw [hop]
    dsimp only
    rw [if_neg (by decide), if_neg (by decide), if_pos (by simp)]
    unfold applyMove
    rw [hid]
    dsimp only
    rw [hla]
  · intro s op t hop hid hnodes hedges hindex
    unfold applyOpRaw
    rw [hop]
    dsimp only
    rw [if_neg (by decide), if_pos (by simp)]
    unfold applyRemove
    rw [hid]
    dsimp only
    have h1 : s.copyAddrs.filter (fun a => !((getNode s.store a).id == t)) =
        s.copyAddrs := by
      rw [List.filter_eq_self]
      intro a ha
      simpa using hnodes a ha
    have h2 : s.copyEdges.filter
        (fun e => !(e.from_ == t) && !(e.to_ == t)) = s.copyEdges := by
      rw [List.filter_eq_self]
      intro e he
      have := hedges e he
      simp [this.1, this.2]
    have h3 : s.index.filter (fun p => !(p.1 == t)) = s.index := by
      rw [List.filter_eq_self]
      intro p hp
      simpa using hindex p hp
    rw [h1, h2, h3]

/-- Witness for the amended C9 at a concrete one-node state. -/
theorem plan_unknown_ids_amended_witness :
    (∃ s', applyOpRaw
        { store := [{ id := "u" }], copyAddrs := [0], copyEdges := [],
          index := [("u", 0)] }
        { op := some "add", name := some "X",
          depends_on := some ["missing", "u"] } = .ok s' ∧
      ∀ e ∈ s'.copyEdges,
        e ∈ ({ store := [{ id := "u" }], copyAddrs := [0], copyEdges := [],
               index := [("u", 0)] } : PlanState).copyEdges ∨
          lookupA s'.index e.to_ ≠ none) ∧
    applyOpRaw
        { store := [{ id := "u" }], copyAddrs := [0], copyEdges := [],
          index := [("u", 0)] }
        { op := some "move", id := some "ghost" } =
      .ok { store := [{ id := "u" }], copyAddrs := [0], copyEdges := [],
            index := [("u", 0)] } ∧
    applyOpRaw
        { store := [{ id := "u" }], copyAddrs := [0], copyEdges := [],
          index := [("u", 0)] }
        { op := some "remove", id := some "ghost" } =
      .ok { store := [{ id := "u" }], copyAddrs := [0], copyEdges := [],
            index := [("u", 0)] } :=
  ⟨plan_unknown_ids_amended.1 _ _ "X" rfl rfl,
    plan_unknown_ids_amended.2.1 _ _ "ghost" rfl rfl (by decide),
    plan_unknown_ids_amended.2.2 _ _ "ghost" rfl rfl (by decide) (by decide)
      (by decide)⟩

/-! ## C10: unknown operation kinds -/

def isRecognizedOp (o : RawOp) : Bool :=
  o.op == some "add" || o.op == some "remove" || o.op == some "move"

theorem applyOpRaw_unknown {s : PlanState} {op : RawOp} {a : String}
    (hop : op.op = some a) (h1 : a ≠ "add") (h2 : a ≠ "remove")
    (h3 : a ≠ "move") : applyOpRaw s op = .ok s := by
  unfold applyOpRaw
  rw [hop]
  dsimp only
  rw [if_neg (by simpa using h1), if_neg (by simpa using h2),
    if_neg (by simpa using h3)]

theorem runOps_filter_recognized (ops : List RawOp) :
    ∀ s : PlanState, (∀ o ∈ ops, o.op ≠ none) →
      runOps s ops = runOps s (ops.filter isRecognizedOp) := by
  induction ops with
  | nil => intro s _; rfl
  | cons o rest ih =>
    intro s hops
    by_cases hrec : isRecognizedOp o = true
    · rw [List.filter_cons_of_pos hrec]
      unfold runOps
      cases h : applyOpRaw s o with
      | error e => rfl
      | ok s' => exact ih s' (fun o' ho' => hops o' (List.mem_cons_of_mem _ ho'))
    · cases hop : o.op with
      | none => exact absurd hop (hops o (List.mem_cons_self _ _))
      | some a =>
        have hne : a ≠ "add" ∧ a ≠ "remove" ∧ a ≠ "move" := by
          unfold isRecognizedOp at hrec
          rw [hop] at hrec
          simp only [Bool.or_eq_true, beq_iff_eq, Option.some.injEq] at hrec
          push_neg at hrec
          exact ⟨hrec.1.1, hrec.1.2, hrec.2⟩
        have hskip : applyOpRaw s o = .ok s :=
          applyOpRaw_unknown hop hne.1 hne.2.1 hne.2.2
        rw [List.filter_cons_of_neg (by simpa using hrec)]
        have hstep : runOps s (o :: rest) = runOps s rest := by
          simp only [runOps]
          rw [hskip]
        rw [hstep]
        exact ih s (fun o' ho' => hops o' (List.mem_cons_of_mem _ ho'))

/-- C10 — Unknown operation kinds are silently ignored: an operation whose
`op` string is none of `add`/`remove`/`move` leaves the state untouched and
raises nothing, so a plan yields the same diff as the plan restricted to its
recognized operations; an operation missing the `op` key entirely raises
(`KeyError`, modelled as `Except.error "op"`), failing the whole plan. -/
theorem apply_plan_unknown_ops :
    (∀ (s : PlanState) (op : RawOp) (a : String), op.op = some a →
      a ≠ "add" → a ≠ "remove" → a ≠ "move" → applyOpRaw s op = .ok s) ∧
    (∀ (g : Graph) (name : Option String) (ops : List RawOp),
      (∀ o ∈ ops, o.op ≠ none) →
      apply_plan g { name := name, operations := ops } =
        apply_plan g { name := name, operations := ops.filter isRecognizedOp }) ∧
    (∀ (g : Graph) (name : Option String) (op0 : RawOp) (rest : List RawOp),
      op0.op = none →
      apply_plan g { name := name, operations := op0 :: rest } =
        .error "op") := by
  refine ⟨?_, ?_, ?_⟩
  · intro s op a hop h1 h2 h3
    exact applyOpRaw_unknown hop h1 h2 h3
  · intro g name ops hops
    unfold apply_plan
    rw [runOps_filter_recognized ops (initState g) hops]
  · intro g name op0 rest hop
    unfold apply_plan runOps
    have : applyOpRaw (initState g) op0 = .error "op" := by
      unfold applyOpRaw
      rw [hop]
    rw [this]

/-- Witness for C10: a plan whose only recognized operation is a `move`,
with an unknown `"rename"` operation interleaved, diffs exactly like the
plan without it; a plan whose first operation lacks `op` fails. -/
theorem apply_plan_unknown_ops_witness :
    applyOpRaw
        { store := [], copyAddrs := [], copyEdges := [], index := [] }
        { op := some "rename", id := some "x" } =
      .ok { store := [], copyAddrs := [], copyEdges := [], index := [] } ∧
    apply_plan { nodes := [{ id := "a", name := "a" }], edges := [] }
        { name := some "w"
          operations := [ { op := some "rename", id := some "a" },
                          { op := some "move", id := some "a",
                            to_layer := some "C1" } ] } =
      apply_plan { nodes := [{ id := "a", name := "a" }], edges := [] }
        { name := some "w"
          operations := List.filter isRecognizedOp
            [ { op := some "rename", id := some "a" },
              { op := some "move", id := some "a", to_layer := some "C1" } ] } ∧
    apply_plan { nodes := [{ id := "a", name := "a" }], edges := [] }
        { name := some "w", operations := [{ name := some "X" }] } =
      .error "op" :=
  ⟨apply_plan_unknown_ops.1 _ _ "rename" rfl (by decide) (by decide) (by decide),
    apply_plan_unknown_ops.2.1 _ (some "w") _ (by
      intro o ho
      rcases List.mem_cons.mp ho with rfl | ho
      · exact fun hc => Option.noConfusion hc
      · rcases List.mem_cons.mp ho with rfl | ho
        · exact fun hc => Option.noConfusion hc
        · cases ho),
    apply_plan_unknown_ops.2.2 _ (some "w") _ [] rfl⟩
